import Mathlib

/-!
Verification of the cuckoo-cycle CUDA miner (src/cuda_miner.cu) against its
natural-language specification.

The source is shallowly embedded: machine words (u32 / u64) are Nat values kept
below the relevant power of two, device memory arrays are functions Nat → Nat
from word index to word value, and the fallible / possibly diverging probe
loops of the open-addressed pointer table are given an explicit fuel argument.
-/

namespace Cuckoo

/-- Write cell i of a word array. -/
def writeArr (a : Nat → Nat) (i v : Nat) : Nat → Nat :=
  fun j => if j = i then v else a j

/-! ## shrinkingset (cuda_miner.cu lines 59-71)

One bit per nonce, packed 32 per word; a zero bit means the edge is alive.
reset marks an edge dead by or-ing its bit in; test reads the bit; block
returns the 32-bit complement of a word, i.e. the alive mask of a 32-edge
block. -/

/-- Model of shrinkingset::reset: bits[n/32] |= 1 << (n%32). -/
def shrinking_reset (bits : Nat → Nat) (n : Nat) : Nat → Nat :=
  writeArr bits (n / 32) (bits (n / 32) ||| (1 <<< (n % 32)))

/-- Model of shrinkingset::test: !((bits[n/32] >> (n%32)) & 1). -/
def shrinking_test (bits : Nat → Nat) (n : Nat) : Bool :=
  ((bits (n / 32) >>> (n % 32)) &&& 1) == 0

/-- Model of shrinkingset::block: ~bits[n/32], a u32 complement. -/
def shrinking_block (bits : Nat → Nat) (n : Nat) : Nat :=
  (2 ^ 32 - 1) ^^^ bits (n / 32)

/-- Number of alive edges among nonces below h. -/
def aliveCount (h : Nat) (bits : Nat → Nat) : Nat :=
  ((List.range h).filter (fun n => shrinking_test bits n)).length

/-! ## twice_set (cuda_miner.cu lines 77-93)

A 2-bit saturating counter per node, 16 nodes per u32 word.  set performs an
atomic or of the low bit of the node's field and, when the returned old value
had the low bit set but not the high bit, a second atomic or of the high bit.
test reads the high bit (as the value 2 or 0). -/

/-- Model of twice_set::reset: all counter words zeroed. -/
def tw_zero : Nat → Nat :=
  fun _ => 0

/-- Model of twice_set::set, with the two atomic ors applied in order. -/
def tw_set (bits : Nat → Nat) (u : Nat) : Nat → Nat :=
  let idx := u / 16
  let bit := 1 <<< (2 * (u % 16))
  let old := bits idx
  let bits1 := writeArr bits idx (old ||| bit)
  let bit2 := bit <<< 1
  if old &&& (bit2 ||| bit) = bit then
    writeArr bits1 idx (bits1 idx ||| bit2)
  else bits1

/-- Model of twice_set::test: (bits[u/16] >> (2*(u%16))) & 2. -/
def tw_test (bits : Nat → Nat) (u : Nat) : Nat :=
  (bits (u / 16) >>> (2 * (u % 16))) &&& 2

/-- Low (seen-once) bit of node u in a twice_set state. -/
def tw_low (bits : Nat → Nat) (u : Nat) : Bool :=
  (bits (u / 16)).testBit (2 * (u % 16))

/-- High (seen-twice) bit of node u in a twice_set state. -/
def tw_high (bits : Nat → Nat) (u : Nat) : Bool :=
  (bits (u / 16)).testBit (2 * (u % 16) + 1)

/-- A sequence of twice_set::set calls applied in order. -/
def tw_fold (l : List Nat) (bits : Nat → Nat) : Nat → Nat :=
  l.foldl tw_set bits

/-! ## cuckoo_hash (cuda_miner.cu lines 95-146)

Compile-time parameters SIZESHIFT (ss) and IDXSHIFT (is) come from cuckoo.h
and the command line; they stay symbolic here. -/

/-- Modelled from the spec: SIZE, from cuckoo.h which is not under src/.  The
spec fixes HALFSIZE = 2^(SIZESHIFT-1) nonces and cuda_miner.cu line 43 states
SIZE >> IDXSHIFT == HALFSIZE >> PART_BITS >> 5 with IDXSHIFT = PART_BITS + 6,
so SIZE = 2 * HALFSIZE = 2^SIZESHIFT. -/
def SIZE (ss : Nat) : Nat := 2 ^ ss

/-- Modelled from the spec: HALFSIZE = 2^(SIZESHIFT-1), the nonce count. -/
def HALFSIZE (ss : Nat) : Nat := 2 ^ (ss - 1)

/-- CUCKOO_SIZE = SIZE >> IDXSHIFT (cuda_miner.cu line 95). -/
def CUCKOO_SIZE (ss is : Nat) : Nat := SIZE ss >>> is

/-- CUCKOO_MASK = CUCKOO_SIZE - 1 (line 96). -/
def CUCKOO_MASK (ss is : Nat) : Nat := CUCKOO_SIZE ss is - 1

/-- KEYBITS = 64 - SIZESHIFT (line 98). -/
def KEYBITS (ss : Nat) : Nat := 64 - ss

/-- KEYMASK = (1L << KEYBITS) - 1 (line 99). -/
def KEYMASK (ss : Nat) : Nat := (1 <<< KEYBITS ss) - 1

/-- MAXDRIFT = 1L << (KEYBITS - IDXSHIFT) (line 100). -/
def MAXDRIFT (ss is : Nat) : Nat := 1 <<< (KEYBITS ss - is)

/-- The u64 value stored by cuckoo_hash::set: (u64)u << SIZESHIFT | v
(line 114), with the shift truncated to 64 bits. -/
def niew (ss u v : Nat) : Nat := ((u <<< ss) % 2 ^ 64) ||| v

/-- Slot predicate of cuckoo_hash::set's probe loop (line 124): the slot is
empty or its stored key matches u's key. -/
def setGood (ss : Nat) (tab : Nat → Nat) (u : Nat) (s : Nat) : Bool :=
  tab s == 0 || (tab s >>> ss == u &&& KEYMASK ss)

/-- Generic linear-probe loop: first slot, starting at ui and stepping by
(ui+1) &&& mask, that satisfies good; none when fuel runs out first. -/
def probeFirst (good : Nat → Bool) (mask : Nat) : Nat → Nat → Option Nat
  | 0, _ => none
  | fuel + 1, ui => if good ui then some ui else probeFirst good mask fuel ((ui + 1) &&& mask)

/-- The slot at which cuckoo_hash::set's loop (lines 115-129) exits and
writes; the loop runs forever when no slot is empty or key-matching, which
the fuel argument makes observable (none for every fuel). -/
def cuckoo_set_probe (ss is : Nat) (tab : Nat → Nat) (u : Nat) (fuel : Nat) : Option Nat :=
  probeFirst (setGood ss tab u) (CUCKOO_MASK ss is) fuel (u >>> is)

/-- Model of cuckoo_hash::set (lines 113-130): probe, then store niew. -/
def cuckoo_set (ss is : Nat) (tab : Nat → Nat) (u v : Nat) (fuel : Nat) :
    Option (Nat → Nat) :=
  match cuckoo_set_probe ss is tab u fuel with
  | none => none
  | some ui => some (writeArr tab ui (niew ss u v))

/-- Unsigned wrap-around probe distance (ui - (u >> IDXSHIFT)) & CUCKOO_MASK
as computed by the assert on line 141; adding 2^64 models the unsigned
subtraction (CUCKOO_SIZE divides 2^64, so the residue is width-independent). -/
def drift (ss is ui ui0 : Nat) : Nat :=
  (2 ^ 64 + ui - ui0) &&& CUCKOO_MASK ss is

/-- Model of cuckoo_hash::operator[] (lines 131-145): returns ok 0 at an
empty slot, the stored node at a key match when the asserted drift bound
holds, error () when the assert fails (process abort), and none when fuel
runs out (the loop has not terminated). -/
def cuckoo_get (ss is : Nat) (tab : Nat → Nat) (u : Nat) :
    Nat → Nat → Option (Except Unit Nat)
  | 0, _ => none
  | fuel + 1, ui =>
    if tab ui = 0 then some (.ok 0)
    else if tab ui >>> ss = u &&& KEYMASK ss then
      if drift ss is ui (u >>> is) < MAXDRIFT ss is then
        some (.ok (tab ui &&& (SIZE ss - 1)))
      else some (.error ())
    else cuckoo_get ss is tab u fuel ((ui + 1) &&& CUCKOO_MASK ss is)

/-- Concrete table exhibiting an unchecked over-drift insert, for the
compile-time configuration SIZESHIFT = 33, IDXSHIFT = 30 (CUCKOO_SIZE = 8,
MAXDRIFT = 2): slots 0 and 1 hold keys 1 and 2, the rest are empty. -/
def tabNine : Nat → Nat :=
  fun i => if i = 0 then niew 33 1 0 else if i = 1 then niew 33 2 0 else 0

/-! ## path (cuda_miner.cu lines 197-210) -/

/-- MAXPATHLEN = 8 << (SIZESHIFT/3) (line 48). -/
def MAXPATHLEN (ss : Nat) : Nat := 8 <<< (ss / 3)

/-- Outcome of a path trace: the normal return of the trail length together
with the trail, or one of the two fatal exits taken when the trail bound is
reached (both print a diagnostic and end the process). -/
inductive PathResult where
  | ok (nu : Nat) (us : Nat → Nat)
  | illegalCycle (len : Nat)
  | maxPathExceeded

/-- The backward trail search of line 201, while (nu-- && us[nu] != u):
starting below index bound nu, the largest index whose trail entry equals u,
or none when u is absent. -/
def pathSearch (us : Nat → Nat) (u : Nat) : Nat → Option Nat
  | 0 => none
  | nu + 1 => if us nu = u then some nu else pathSearch us u nu

/-- Model of path's loop (lines 199-208): follow the pointer map f from u,
recording each node at the incremented index; when the incremented index
reaches M the code searches the trail for u and exits the process, reporting
an illegal cycle of length M minus the found index, or an exceeded maximum
path length. -/
def pathAux (f : Nat → Nat) (M : Nat) (us : Nat → Nat) (u nu : Nat) :
    PathResult :=
  if u = 0 then .ok nu us
  else if M ≤ nu + 1 then
    match pathSearch us u M with
    | some k => .illegalCycle (M - k)
    | none => .maxPathExceeded
  else pathAux f M (writeArr us (nu + 1) u) (f u) (nu + 1)
termination_by M - nu
decreasing_by
  simp_wf
  omega

/-- Model of path (line 197): the loop starts at nu = 0. -/
def path (f : Nat → Nat) (M : Nat) (us : Nat → Nat) (u : Nat) : PathResult :=
  pathAux f M us u 0

/-! ## Post-trim load gate (cuda_miner.cu lines 276-282) -/

/-- Outcome of the post-trim load check. -/
inductive GateResult where
  | overloaded (msg : String) (exitCode : Nat)
  | proceed
deriving DecidableEq

/-- Model of lines 276-282: load = 100 * cnt / CUCKOO_SIZE (cnt the
surviving-edge popcount); at 90 or above the program prints the diagnostic
and calls exit(0), before the cuckoo_hash is even allocated; otherwise the
run proceeds to cycle detection. -/
def overloadGate (ss is cnt : Nat) : GateResult :=
  if 90 ≤ 100 * cnt / CUCKOO_SIZE ss is then
    .overloaded "overloaded! exiting..." 0
  else .proceed

/-! ## Solution emission (cuda_miner.cu lines 300-322) -/

/-- State of the solution re-scan: nonces printed so far, the pending cycle
edge set (std::set cycle), and the match counter n. -/
structure EmitState where
  printed : List Nat
  pending : Finset (Nat × Nat)
  n : Nat

/-- One step of the re-scan loop (lines 309-320) at nonce nce: if the edge
is alive and its regenerated pair is a pending cycle edge, the program
prints the variable nonce — the outer loop's trigger nonce, line 315 — then
erases the pair when PROOFSIZE > 2 (lines 316-317) and increments n. -/
def emitStep (sip : Nat → Nat × Nat) (proofsize nonceFound : Nat)
    (alive : Nat → Bool) (s : EmitState) (nce : Nat) : EmitState :=
  if alive nce then
    if sip nce ∈ s.pending then
      { printed := s.printed ++ [nonceFound]
        pending := if 2 < proofsize then s.pending.erase (sip nce)
          else s.pending
        n := s.n + 1 }
    else s
  else s

/-- The full re-scan over nonces 0..H-1 from the collected cycle edges. -/
def emitLoop (sip : Nat → Nat × Nat) (proofsize nonceFound : Nat)
    (alive : Nat → Bool) (H : Nat) (cycle0 : Finset (Nat × Nat)) :
    EmitState :=
  (List.range H).foldl (emitStep sip proofsize nonceFound alive)
    ⟨[], cycle0, 0⟩

/-- Whether some alive nonce below H regenerates the pair e. -/
def matchedUpTo (sip : Nat → Nat × Nat) (alive : Nat → Bool) (H : Nat)
    (e : Nat × Nat) : Bool :=
  (List.range H).any (fun m => alive m && decide (sip m = e))

/-- Toy edge generator for the C1 failing input: nonces 1, 3, 4, 6 map to
the four cycle edges, the rest elsewhere. -/
def sipToy : Nat → Nat × Nat :=
  fun n => if n = 1 then (1, 2) else if n = 3 then (3, 4)
    else if n = 4 then (5, 6) else if n = 6 then (7, 8) else (9, 10)

/-- The four cycle edges of the C1 failing input. -/
def cycleToy : Finset (Nat × Nat) :=
  {(1, 2), (3, 4), (5, 6), (7, 8)}

/-- Degenerate 2-cycle edge generator: both nonces give the pair (1, 2). -/
def sipPair : Nat → Nat × Nat :=
  fun _ => (1, 2)

/-- Toy per-side edge generator used in witnesses. -/
def dipToy : Nat → Nat → Nat :=
  fun n uorv => (n + uorv) % 8

/-! ## Trimming kernels (cuda_miner.cu lines 161-195 and 254-262)

The edge generator dipnode depends on the siphash key derived from the
header; it enters the model as an arbitrary function dip : nonce → side →
node, which covers every fixed header.  Each kernel thread t of nthreads
scans blocks id*32, id*32 + nthreads*32, ...; the per-word scans read an
alive mask and walk its bits.  The concurrent atomic marks of the count
kernel are modeled as a fold in thread order; the characterization theorems
are stated up to permutation of the marks, which covers every
interleaving of the call-level atomic updates. -/

/-- PART_MASK = (1 << PART_BITS) - 1 (line 73). -/
def PART_MASK (pb : Nat) : Nat := (1 <<< pb) - 1

/-- Block list of one kernel thread: for (block = id*32; block < H;
block += step).  The fuel argument (H at every use) makes the definition
total also for step = 0. -/
def blockList (H step : Nat) : Nat → Nat → List Nat
  | 0, _ => []
  | fuel + 1, b => if b < H then b :: blockList H step fuel (b + step) else []

/-- Inner word scan (lines 167 and 184): walk the alive mask one bit at a
time, applying the action at each set bit, until the mask is exhausted. -/
def scanBits {σ : Type} (act : Nat → σ → σ) (alive32 nonce : Nat) (s : σ) :
    σ :=
  if alive32 = 0 then s
  else scanBits act (alive32 >>> 1) (nonce + 1)
    (if alive32 &&& 1 = 1 then act nonce s else s)
termination_by alive32
decreasing_by
  rename_i h
  rw [Nat.shiftRight_eq_div_pow]
  exact Nat.div_lt_self (by omega) (by omega)

/-- The nonces at the set bits of mask a32, starting at base nonce b. -/
def bitNonces (a32 b : Nat) : List Nat :=
  if a32 = 0 then []
  else (if a32 &&& 1 = 1 then [b] else []) ++ bitNonces (a32 >>> 1) (b + 1)
termination_by a32
decreasing_by
  rename_i h
  rw [Nat.shiftRight_eq_div_pow]
  exact Nat.div_lt_self (by omega) (by omega)

/-- Per-nonce action of count_node_deg (lines 168-173): compute the node on
the current side; if it lies in the current partition, mark it. -/
def countAct (dip : Nat → Nat → Nat) (pb uorv part : Nat) (nonce : Nat)
    (nl : Nat → Nat) : Nat → Nat :=
  if dip nonce uorv &&& PART_MASK pb = part then
    tw_set nl (dip nonce uorv >>> pb)
  else nl

/-- One count_node_deg thread (lines 161-176). -/
def count_thread (dip : Nat → Nat → Nat) (pb H T uorv part : Nat)
    (alive : Nat → Nat) (t : Nat) (nl : Nat → Nat) : Nat → Nat :=
  (blockList H (T * 32) H (t * 32)).foldl
    (fun nl b =>
      scanBits (countAct dip pb uorv part) (shrinking_block alive b) b nl)
    nl

/-- The count kernel launched with nthreads blocks (line 258), starting from
the zeroed counter (line 257). -/
def count_node_deg (dip : Nat → Nat → Nat) (pb H T uorv part : Nat)
    (alive : Nat → Nat) : Nat → Nat :=
  (List.range T).foldl
    (fun nl t => count_thread dip pb H T uorv part alive t nl) tw_zero

/-- Per-nonce action of kill_leaf_edges (lines 185-192): recompute the node;
in the current partition, reset the edge when the node is not nonleaf. -/
def killAct (dip : Nat → Nat → Nat) (pb uorv part : Nat) (nl : Nat → Nat)
    (nonce : Nat) (ws : Nat → Nat) : Nat → Nat :=
  if dip nonce uorv &&& PART_MASK pb = part then
    if tw_test nl (dip nonce uorv >>> pb) = 0 then shrinking_reset ws nonce
    else ws
  else ws

/-- One kill_leaf_edges thread (lines 178-195); the alive mask of each block
is read from the current state when the block scan starts. -/
def kill_thread (dip : Nat → Nat → Nat) (pb H T uorv part : Nat)
    (nl : Nat → Nat) (t : Nat) (ws : Nat → Nat) : Nat → Nat :=
  (blockList H (T * 32) H (t * 32)).foldl
    (fun ws b =>
      scanBits (killAct dip pb uorv part nl) (shrinking_block ws b) b ws)
    ws

/-- The kill kernel launched with nthreads blocks (line 259). -/
def kill_leaf_edges (dip : Nat → Nat → Nat) (pb H T uorv part : Nat)
    (nl : Nat → Nat) (ws : Nat → Nat) : Nat → Nat :=
  (List.range T).foldl
    (fun ws t => kill_thread dip pb H T uorv part nl t ws) ws

/-- One half-round for one partition (lines 257-259): zero the counter,
count degrees over the alive set, then kill the leaf edges. -/
def trimRound (dip : Nat → Nat → Nat) (pb H T : Nat) (ws : Nat → Nat)
    (uorv part : Nat) : Nat → Nat :=
  kill_leaf_edges dip pb H T uorv part
    (count_node_deg dip pb H T uorv part ws) ws

/-- The host trimming loop (lines 254-262): ntrims rounds over both sides
and every partition. -/
def trimExec (dip : Nat → Nat → Nat) (pb H T ntrims : Nat)
    (ws : Nat → Nat) : Nat → Nat :=
  (List.range ntrims).foldl (fun ws _ =>
    (List.range 2).foldl (fun ws uorv =>
      (List.range (PART_MASK pb + 1)).foldl (fun ws part =>
        trimRound dip pb H T ws uorv part) ws) ws) ws

/-- The kill decision for one nonce, as a predicate of the phase-start
state: the node lies in the current partition and its counter is not
saturated. -/
def killCond (dip : Nat → Nat → Nat) (pb uorv part : Nat) (nl : Nat → Nat)
    (n : Nat) : Bool :=
  decide (dip n uorv &&& PART_MASK pb = part) &&
    (tw_test nl (dip n uorv >>> pb) == 0)

/-- The mark emitted by one nonce during the count phase, when its node lies
in the current partition. -/
def countMark (dip : Nat → Nat → Nat) (pb uorv part : Nat) (n : Nat) :
    Option Nat :=
  if dip n uorv &&& PART_MASK pb = part then some (dip n uorv >>> pb)
  else none

/-- The alive nonces scanned by thread t. -/
def threadNonces (H T t : Nat) (ws : Nat → Nat) : List Nat :=
  (blockList H (T * 32) H (t * 32)).flatMap
    (fun b => bitNonces (shrinking_block ws b) b)

/-- All alive nonces scanned by a T-thread kernel, in thread order. -/
def allNonces (H T : Nat) (ws : Nat → Nat) : List Nat :=
  (List.range T).flatMap (fun t => threadNonces H T t ws)

end Cuckoo

namespace Cuckoo

/-! ### Bit-level helper lemmas -/

theorem writeArr_same (a : Nat → Nat) (i v : Nat) : writeArr a i v i = v := by
  simp [writeArr]

theorem writeArr_other (a : Nat → Nat) {i j : Nat} (v : Nat) (h : j ≠ i) :
    writeArr a i v j = a j := by
  simp [writeArr, h]

theorem and_one_eq_zero_iff (x : Nat) : (x &&& 1 == 0) = !x.testBit 0 := by
  have h := Nat.and_two_pow x 0
  simp only [pow_zero, mul_one] at h
  rw [h]
  cases x.testBit 0 <;> simp

theorem shrinking_test_eq (bits : Nat → Nat) (n : Nat) :
    shrinking_test bits n = !(bits (n / 32)).testBit (n % 32) := by
  rw [shrinking_test, and_one_eq_zero_iff, Nat.testBit_shiftRight, Nat.add_zero]

theorem div_mod_eq_iff {a b : Nat} (w : Nat) :
    a / w = b / w ∧ a % w = b % w ↔ a = b := by
  constructor
  · rintro ⟨h1, h2⟩
    have ha := Nat.div_add_mod a w
    have hb := Nat.div_add_mod b w
    rw [h1, h2] at ha
    omega
  · rintro rfl; exact ⟨rfl, rfl⟩

theorem shrinking_test_reset (bits : Nat → Nat) (n m : Nat) :
    shrinking_test (shrinking_reset bits m) n =
      (shrinking_test bits n && !(n == m)) := by
  rw [shrinking_test_eq, shrinking_test_eq, shrinking_reset]
  by_cases hw : n / 32 = m / 32
  · rw [hw, writeArr_same, Nat.testBit_or, Nat.one_shiftLeft, Nat.testBit_two_pow]
    by_cases hb : n % 32 = m % 32
    · have : n = m := ((div_mod_eq_iff 32).1 ⟨hw, hb⟩)
      subst this
      simp
    · have : n ≠ m := by
        intro h; subst h; exact hb rfl
      simp [hb, this, Ne.symm hb]
  · rw [writeArr_other _ _ hw]
    have : n ≠ m := by
      intro h; subst h; exact hw rfl
    simp [this]

theorem shrinking_reset_dead {bits : Nat → Nat} {n : Nat}
    (h : shrinking_test bits n = false) : shrinking_reset bits n = bits := by
  rw [shrinking_test_eq] at h
  have hb : (bits (n / 32)).testBit (n % 32) = true := by
    cases hc : (bits (n / 32)).testBit (n % 32)
    · rw [hc] at h; simp at h
    · rfl
  funext j
  rw [shrinking_reset]
  by_cases hj : j = n / 32
  · subst hj
    rw [writeArr_same]
    refine Nat.eq_of_testBit_eq fun i => ?_
    rw [Nat.testBit_or, Nat.one_shiftLeft, Nat.testBit_two_pow]
    by_cases hi : n % 32 = i
    · subst hi; simp [hb]
    · simp [hi]
  · exact writeArr_other _ _ hj

/-! ### twice_set characterization -/

theorem one_shiftLeft_shiftLeft (k : Nat) : (1 <<< k) <<< 1 = 2 ^ (k + 1) := by
  rw [Nat.one_shiftLeft, Nat.shiftLeft_eq, pow_one, pow_succ]

theorem twmask_testBit (k i : Nat) :
    ((1 <<< k) <<< 1 ||| 1 <<< k).testBit i = (decide (i = k + 1) || decide (i = k)) := by
  rw [Nat.testBit_or, one_shiftLeft_shiftLeft, Nat.one_shiftLeft,
    Nat.testBit_two_pow, Nat.testBit_two_pow]
  simp [eq_comm]

theorem tw_cond_iff (old k : Nat) :
    old &&& ((1 <<< k) <<< 1 ||| 1 <<< k) = 1 <<< k ↔
      old.testBit k = true ∧ old.testBit (k + 1) = false := by
  constructor
  · intro h
    have hk := congrArg (fun x => x.testBit k) h
    have hk1 := congrArg (fun x => x.testBit (k + 1)) h
    simp only [Nat.testBit_and, twmask_testBit, Nat.one_shiftLeft,
      Nat.testBit_two_pow] at hk hk1
    constructor
    · simpa using hk
    · have : ¬(k = k + 1) := by omega
      simpa [this] using hk1
  · rintro ⟨h1, h2⟩
    apply Nat.eq_of_testBit_eq
    intro i
    rw [Nat.testBit_and, twmask_testBit, Nat.one_shiftLeft, Nat.testBit_two_pow]
    by_cases hik : i = k
    · subst hik; simp [h1]
    · by_cases hik1 : i = k + 1
      · subst hik1
        have : ¬(k = k + 1) := by omega
        simp [h2, this]
      · simp [hik, hik1, Ne.symm hik, Ne.symm hik1]

theorem tw_set_word (bits : Nat → Nat) (a : Nat) :
    tw_set bits a (a / 16) =
      if bits (a / 16) &&& ((1 <<< (2 * (a % 16))) <<< 1 ||| 1 <<< (2 * (a % 16)))
          = 1 <<< (2 * (a % 16))
      then bits (a / 16) ||| 1 <<< (2 * (a % 16)) ||| (1 <<< (2 * (a % 16))) <<< 1
      else bits (a / 16) ||| 1 <<< (2 * (a % 16)) := by
  simp only [tw_set]
  split
  · rw [writeArr_same, writeArr_same]
  · rw [writeArr_same]

theorem tw_set_other (bits : Nat → Nat) (a : Nat) {j : Nat} (h : j ≠ a / 16) :
    tw_set bits a j = bits j := by
  simp only [tw_set]
  split
  · rw [writeArr_other _ _ h, writeArr_other _ _ h]
  · rw [writeArr_other _ _ h]

theorem mod16_ne_of_ne {u a : Nat} (hw : u / 16 = a / 16) (hu : u ≠ a) :
    u % 16 ≠ a % 16 := by
  intro hm
  exact hu ((div_mod_eq_iff 16).1 ⟨hw, hm⟩)

theorem tw_set_low (bits : Nat → Nat) (a u : Nat) :
    tw_low (tw_set bits a) u = (tw_low bits u || decide (u = a)) := by
  rw [tw_low, tw_low]
  by_cases hw : u / 16 = a / 16
  · rw [hw, tw_set_word]
    by_cases hu : u = a
    · subst hu
      split
      · simp [Nat.testBit_or, Nat.one_shiftLeft, one_shiftLeft_shiftLeft,
          Nat.testBit_two_pow]
      · simp [Nat.testBit_or, Nat.one_shiftLeft, Nat.testBit_two_pow]
    · have hm : u % 16 ≠ a % 16 := mod16_ne_of_ne hw hu
      have h1 : ¬(2 * (a % 16) = 2 * (u % 16)) := by omega
      have h2 : ¬(2 * (a % 16) + 1 = 2 * (u % 16)) := by omega
      split
      · simp [Nat.testBit_or, Nat.one_shiftLeft, one_shiftLeft_shiftLeft,
          Nat.testBit_two_pow, h1, h2, hu]
        all_goals (intros; omega)
      · simp [Nat.testBit_or, Nat.one_shiftLeft, Nat.testBit_two_pow, h1, hu]
  · rw [tw_set_other bits a (fun h => hw (by rw [h]))]
    have hu : u ≠ a := by
      intro h; subst h; exact hw rfl
    simp [hu]

theorem tw_set_high (bits : Nat → Nat) (a u : Nat) :
    tw_high (tw_set bits a) u =
      (tw_high bits u || (decide (u = a) && tw_low bits u)) := by
  rw [tw_high, tw_high, tw_low]
  by_cases hw : u / 16 = a / 16
  · rw [hw, tw_set_word]
    by_cases hu : u = a
    · subst hu
      split
      · rename_i hcond
        obtain ⟨hlo, hhi⟩ := (tw_cond_iff _ _).1 hcond
        have h1 : ¬(2 * (u % 16) = 2 * (u % 16) + 1) := by omega
        simp [Nat.testBit_or, Nat.one_shiftLeft, one_shiftLeft_shiftLeft,
          Nat.testBit_two_pow, hlo, h1]
      · rename_i hcond
        rw [tw_cond_iff] at hcond
        have h1 : ¬(2 * (u % 16) = 2 * (u % 16) + 1) := by omega
        cases hlo : (bits (u / 16)).testBit (2 * (u % 16))
        · simp [Nat.testBit_or, Nat.one_shiftLeft, Nat.testBit_two_pow, h1, hlo]
        · cases hhi : (bits (u / 16)).testBit (2 * (u % 16) + 1)
          · exact absurd ⟨hlo, hhi⟩ hcond
          · simp [Nat.testBit_or, Nat.one_shiftLeft, Nat.testBit_two_pow, h1,
              hlo, hhi]
    · have hm : u % 16 ≠ a % 16 := mod16_ne_of_ne hw hu
      have h1 : ¬(2 * (a % 16) = 2 * (u % 16) + 1) := by omega
      have h2 : ¬(2 * (a % 16) + 1 = 2 * (u % 16) + 1) := by omega
      split
      · simp [Nat.testBit_or, Nat.one_shiftLeft, one_shiftLeft_shiftLeft,
          Nat.testBit_two_pow, h1, h2, hu]
        all_goals (intros; omega)
      · simp [Nat.testBit_or, Nat.one_shiftLeft, Nat.testBit_two_pow, h1, hu]
  · rw [tw_set_other bits a (fun h => hw (by rw [h]))]
    have hu : u ≠ a := by
      intro h; subst h; exact hw rfl
    simp [hu]

theorem tw_fold_char : ∀ (l : List Nat) (bits : Nat → Nat) (c : Nat → Nat),
    (∀ u, tw_low bits u = decide (1 ≤ c u) ∧ tw_high bits u = decide (2 ≤ c u)) →
    ∀ u, tw_low (tw_fold l bits) u = decide (1 ≤ c u + l.count u) ∧
      tw_high (tw_fold l bits) u = decide (2 ≤ c u + l.count u) := by
  intro l
  induction l with
  | nil => intro bits c h u; simpa using h u
  | cons a l ih =>
    intro bits c h u
    have hstep : ∀ v, tw_low (tw_set bits a) v =
          decide (1 ≤ c v + if v = a then 1 else 0) ∧
        tw_high (tw_set bits a) v =
          decide (2 ≤ c v + if v = a then 1 else 0) := by
      intro v
      rw [tw_set_low, tw_set_high, (h v).1, (h v).2]
      by_cases hv : v = a
      · subst hv
        have h1 : (if v = v then 1 else 0) = 1 := if_pos rfl
        have h2 : decide (v = v) = true := decide_eq_true rfl
        constructor
        · rw [h1, h2, Bool.or_true]
          have h3 : decide (1 ≤ c v + 1) = true := decide_eq_true (by omega)
          rw [h3]
        · rw [h1, h2, Bool.true_and]
          by_cases hc : 2 ≤ c v + 1
          · have h4 : decide (2 ≤ c v + 1) = true := decide_eq_true hc
            have h5 : decide (1 ≤ c v) = true := decide_eq_true (by omega)
            rw [h4, h5, Bool.or_true]
          · have hca : c v = 0 := by omega
            rw [hca]
            rfl
      · simp [hv]
    have hmain := ih (tw_set bits a) (fun v => c v + if v = a then 1 else 0) hstep u
    rw [tw_fold] at hmain ⊢
    simp only [List.foldl_cons]
    have hcnt : (a :: l).count u = l.count u + if u = a then 1 else 0 := by
      rw [List.count_cons]
      by_cases hv : u = a
      · simp [hv]
      · simp [hv, Ne.symm hv]
    refine ⟨?_, ?_⟩
    · rw [hmain.1, hcnt]
      simp only [decide_eq_decide]
      split <;> omega
    · rw [hmain.2, hcnt]
      simp only [decide_eq_decide]
      split <;> omega

theorem tw_zero_low (u : Nat) : tw_low tw_zero u = false := by
  simp [tw_low, tw_zero]

theorem tw_zero_high (u : Nat) : tw_high tw_zero u = false := by
  simp [tw_high, tw_zero]

theorem tw_fold_zero_char (l : List Nat) (u : Nat) :
    tw_low (tw_fold l tw_zero) u = decide (1 ≤ l.count u) ∧
    tw_high (tw_fold l tw_zero) u = decide (2 ≤ l.count u) := by
  have h := tw_fold_char l tw_zero (fun _ => 0) (fun u => by
    simp [tw_zero_low, tw_zero_high]) u
  simpa using h

theorem tw_test_ne_zero_iff (bits : Nat → Nat) (u : Nat) :
    tw_test bits u ≠ 0 ↔ tw_high bits u = true := by
  rw [tw_test, tw_high]
  have h2 : (2 : Nat) = 2 ^ 1 := rfl
  rw [h2, Nat.and_two_pow, Nat.testBit_shiftRight]
  cases h : (bits (u / 16)).testBit (2 * (u % 16) + 1) <;> simp [h]

theorem tw_test_eq_count (l : List Nat) (u : Nat) :
    (tw_test (tw_fold l tw_zero) u ≠ 0) ↔ 2 ≤ l.count u := by
  rw [tw_test_ne_zero_iff, (tw_fold_zero_char l u).2]
  simp

theorem tw_test_eq_high (bits : Nat → Nat) (u : Nat) :
    tw_test bits u = 2 * (tw_high bits u).toNat := by
  rw [tw_test, tw_high]
  have h2 : (2 : Nat) = 2 ^ 1 := rfl
  rw [h2, Nat.and_two_pow, Nat.testBit_shiftRight]
  rw [pow_one, Nat.mul_comm]

/-- C7: after reset, is_nonleaf(u) — test returning the nonzero value —
holds exactly when set was invoked at least twice for node u; a single mark
leaves it false; and duplicate or reordered marks never regress the
saturated state: any permutation of the marks yields the same test value,
and further marks keep a saturated node saturated. -/
theorem nonleaf_iff_marked_twice (l : List Nat) (u : Nat) :
    ((tw_test (tw_fold l tw_zero) u ≠ 0) ↔ 2 ≤ l.count u) ∧
    (l.count u = 1 → tw_test (tw_fold l tw_zero) u = 0) ∧
    (∀ l2, l.Perm l2 →
      tw_test (tw_fold l2 tw_zero) u = tw_test (tw_fold l tw_zero) u) ∧
    (∀ l3, tw_test (tw_fold l tw_zero) u ≠ 0 →
      tw_test (tw_fold (l ++ l3) tw_zero) u ≠ 0) := by
  refine ⟨tw_test_eq_count l u, ?_, ?_, ?_⟩
  · intro h1
    by_contra hne
    have := (tw_test_eq_count l u).mp hne
    omega
  · intro l2 hp
    rw [tw_test_eq_high, tw_test_eq_high,
      (tw_fold_zero_char l2 u).2, (tw_fold_zero_char l u).2,
      hp.count_eq u]
  · intro l3 h
    rw [tw_test_eq_count] at h ⊢
    rw [List.count_append]
    omega

/-- Witness for nonleaf_iff_marked_twice: two marks of node 5 saturate it. -/
theorem nonleaf_iff_marked_twice_witness :
    tw_test (tw_fold [5, 5] tw_zero) 5 ≠ 0 :=
  (nonleaf_iff_marked_twice [5, 5] 5).1.mpr (by decide)

/-! ### Linear-probe characterization -/

theorem probe_shift (C ui : Nat) :
    ∀ k, ((ui + 1) % C + k) % C = (ui + (k + 1)) % C := by
  intro k
  rw [Nat.mod_add_mod]
  congr 1
  omega

theorem probeFirst_none_iff (good : Nat → Bool) (m : Nat) :
    ∀ (fuel ui : Nat), ui < 2 ^ m →
      (probeFirst good (2 ^ m - 1) fuel ui = none ↔
        ∀ k < fuel, good ((ui + k) % 2 ^ m) = false) := by
  intro fuel
  induction fuel with
  | zero => intro ui _; simp [probeFirst]
  | succ fuel ih =>
    intro ui hui
    rw [probeFirst]
    by_cases hg : good ui = true
    · rw [if_pos hg]
      constructor
      · intro h; simp at h
      · intro h
        have h0 := h 0 (by omega)
        rw [Nat.add_zero, Nat.mod_eq_of_lt hui, hg] at h0
        cases h0
    · rw [if_neg hg, Nat.and_pow_two_sub_one_eq_mod]
      have hui1 : (ui + 1) % 2 ^ m < 2 ^ m := Nat.mod_lt _ (Nat.two_pow_pos m)
      rw [ih _ hui1]
      have hgf : good ui = false := by
        cases hgg : good ui
        · rfl
        · exact absurd hgg hg
      constructor
      · intro h k hk
        match k with
        | 0 => rwa [Nat.add_zero, Nat.mod_eq_of_lt hui]
        | k + 1 =>
          have := h k (by omega)
          rwa [probe_shift _ _ _] at this
      · intro h k hk
        rw [probe_shift _ _ _]
        exact h (k + 1) (by omega)

theorem probeFirst_some_char (good : Nat → Bool) (m : Nat) :
    ∀ (fuel ui : Nat), ui < 2 ^ m → ∀ s,
      probeFirst good (2 ^ m - 1) fuel ui = some s →
      ∃ k, k < fuel ∧ s = (ui + k) % 2 ^ m ∧ good s = true ∧
        ∀ j < k, good ((ui + j) % 2 ^ m) = false := by
  intro fuel
  induction fuel with
  | zero => intro ui _ s h; simp [probeFirst] at h
  | succ fuel ih =>
    intro ui hui s h
    rw [probeFirst] at h
    by_cases hg : good ui = true
    · rw [if_pos hg] at h
      have hs : ui = s := by injection h
      subst hs
      exact ⟨0, by omega, by rw [Nat.add_zero, Nat.mod_eq_of_lt hui], hg,
        fun j hj => absurd hj (by omega)⟩
    · rw [if_neg hg, Nat.and_pow_two_sub_one_eq_mod] at h
      have hui1 : (ui + 1) % 2 ^ m < 2 ^ m := Nat.mod_lt _ (Nat.two_pow_pos m)
      obtain ⟨k, hk, hs, hgs, hprev⟩ := ih _ hui1 s h
      have hgf : good ui = false := by
        cases hgg : good ui
        · rfl
        · exact absurd hgg hg
      refine ⟨k + 1, by omega, ?_, hgs, ?_⟩
      · rwa [← probe_shift _ _ _]
      · intro j hj
        match j with
        | 0 => rwa [Nat.add_zero, Nat.mod_eq_of_lt hui]
        | j + 1 =>
          have := hprev j (by omega)
          rwa [probe_shift _ _ _] at this

theorem cuckoo_size_eq {ss is : Nat} (h : is ≤ ss) :
    CUCKOO_SIZE ss is = 2 ^ (ss - is) := by
  rw [CUCKOO_SIZE, SIZE, Nat.shiftRight_eq_div_pow, Nat.pow_div h (by omega)]

theorem shiftRight_lt_pow {u ss is : Nat} (hu : u < 2 ^ ss) (his : is ≤ ss) :
    u >>> is < 2 ^ (ss - is) := by
  rw [Nat.shiftRight_eq_div_pow]
  rw [Nat.div_lt_iff_lt_mul (Nat.two_pow_pos is)]
  calc u < 2 ^ ss := hu
    _ = 2 ^ (ss - is) * 2 ^ is := by rw [← pow_add]; congr 1; omega

theorem cuckoo_get_at_probe (ss is : Nat) (tab : Nat → Nat) (u : Nat) :
    ∀ fuel ui s,
      probeFirst (setGood ss tab u) (CUCKOO_MASK ss is) fuel ui = some s →
      cuckoo_get ss is tab u fuel ui =
        some (if tab s = 0 then Except.ok 0
          else if drift ss is s (u >>> is) < MAXDRIFT ss is
          then Except.ok (tab s &&& (SIZE ss - 1)) else Except.error ()) := by
  intro fuel
  induction fuel with
  | zero => intro ui s h; simp [probeFirst] at h
  | succ fuel ih =>
    intro ui s h
    rw [probeFirst] at h
    rw [cuckoo_get]
    by_cases h0 : tab ui = 0
    · have hg : setGood ss tab u ui = true := by simp [setGood, h0]
      rw [if_pos hg] at h
      have hs : ui = s := by injection h
      subst hs
      rw [if_pos h0, if_pos h0]
    · by_cases hm : tab ui >>> ss = u &&& KEYMASK ss
      · have hg : setGood ss tab u ui = true := by simp [setGood, hm]
        rw [if_pos hg] at h
        have hs : ui = s := by injection h
        subst hs
        rw [if_neg h0, if_pos hm, if_neg h0]
        split <;> rfl
      · have hg : setGood ss tab u ui = false := by simp [setGood, h0, hm]
        rw [if_neg (by simp [hg])] at h
        rw [if_neg h0, if_neg hm]
        exact ih _ s h

theorem probeFirst_first (good : Nat → Bool) (m fuel ui k : Nat)
    (hui : ui < 2 ^ m) (hk : k < fuel)
    (hgood : good ((ui + k) % 2 ^ m) = true)
    (hprev : ∀ j < k, good ((ui + j) % 2 ^ m) = false) :
    probeFirst good (2 ^ m - 1) fuel ui = some ((ui + k) % 2 ^ m) := by
  cases h : probeFirst good (2 ^ m - 1) fuel ui with
  | none =>
    have := (probeFirst_none_iff good m fuel ui hui).mp h k hk
    rw [hgood] at this
    cases this
  | some s =>
    obtain ⟨k2, hk2, hs2, hgs2, hprev2⟩ := probeFirst_some_char good m fuel ui hui s h
    have hkk : k2 = k := by
      rcases Nat.lt_trichotomy k2 k with hlt | heq | hgt
      · have := hprev k2 hlt
        rw [← hs2, hgs2] at this
        cases this
      · exact heq
      · have := hprev2 k hgt
        rw [hgood] at this
        cases this
    rw [hkk] at hs2
    rw [hs2]

/-! ### Facts about the stored value niew -/

theorem niew_add {ss u v : Nat} (hss : ss ≤ 32) (hu : u < SIZE ss)
    (hv : v < SIZE ss) : niew ss u v = 2 ^ ss * u + v := by
  rw [niew, Nat.shiftLeft_eq]
  have hlt : u * 2 ^ ss < 2 ^ 64 := by
    calc u * 2 ^ ss < 2 ^ ss * 2 ^ ss := by
          exact (Nat.mul_lt_mul_right (Nat.two_pow_pos ss)).mpr hu
      _ = 2 ^ (ss + ss) := by rw [pow_add]
      _ ≤ 2 ^ 64 := Nat.pow_le_pow_right (by omega) (by omega)
  rw [Nat.mod_eq_of_lt hlt, Nat.mul_comm]
  exact (Nat.mul_add_lt_is_or hv u).symm

theorem niew_key {ss u v : Nat} (hss : ss ≤ 32) (hu : u < SIZE ss)
    (hv : v < SIZE ss) : niew ss u v >>> ss = u := by
  rw [niew_add hss hu hv, Nat.shiftRight_eq_div_pow,
    Nat.mul_add_div (Nat.two_pow_pos ss),
    Nat.div_eq_of_lt (show v < 2 ^ ss from hv), Nat.add_zero]

theorem niew_low {ss u v : Nat} (hss : ss ≤ 32) (hu : u < SIZE ss)
    (hv : v < SIZE ss) : niew ss u v &&& (SIZE ss - 1) = v := by
  rw [niew_add hss hu hv, SIZE, Nat.and_pow_two_sub_one_eq_mod,
    Nat.mul_add_mod, Nat.mod_eq_of_lt (show v < 2 ^ ss from hv)]

theorem niew_ne_zero {ss u v : Nat} (hss : ss ≤ 32) (hu0 : u ≠ 0)
    (hu : u < SIZE ss) (hv : v < SIZE ss) : niew ss u v ≠ 0 := by
  rw [niew_add hss hu hv]
  have h1 := Nat.two_pow_pos ss
  have h2 : 2 ^ ss * 1 ≤ 2 ^ ss * u :=
    Nat.mul_le_mul_left _ (by omega)
  omega

theorem key_self {ss u : Nat} (hss : ss ≤ 32) (hu : u < SIZE ss) :
    u &&& KEYMASK ss = u := by
  rw [KEYMASK, Nat.one_shiftLeft, Nat.and_pow_two_sub_one_eq_mod]
  apply Nat.mod_eq_of_lt
  calc u < 2 ^ ss := hu
    _ ≤ 2 ^ KEYBITS ss := Nat.pow_le_pow_right (by omega) (by rw [KEYBITS]; omega)

theorem setGood_congr {ss : Nat} {tab tab2 : Nat → Nat} {u x : Nat}
    (h : tab2 x = tab x) : setGood ss tab2 u x = setGood ss tab u x := by
  simp [setGood, h]

theorem cuckoo_mask_eq {ss is : Nat} (h : is ≤ ss) :
    CUCKOO_MASK ss is = 2 ^ (ss - is) - 1 := by
  rw [CUCKOO_MASK, cuckoo_size_eq h]

theorem mod_cycle_eq {m ui j k : Nat} (hj : j < 2 ^ m) (hk : k < 2 ^ m)
    (h : (ui + j) % 2 ^ m = (ui + k) % 2 ^ m) : j = k := by
  rcases Nat.le_total j k with hle | hle
  · have hd : 2 ^ m ∣ (ui + k) - (ui + j) :=
      (Nat.modEq_iff_dvd' (by omega)).mp h
    rcases Nat.eq_zero_or_pos ((ui + k) - (ui + j)) with h0 | hp
    · omega
    · have := Nat.le_of_dvd hp hd
      omega
  · have hd : 2 ^ m ∣ (ui + j) - (ui + k) :=
      (Nat.modEq_iff_dvd' (by omega)).mp h.symm
    rcases Nat.eq_zero_or_pos ((ui + j) - (ui + k)) with h0 | hp
    · omega
    · have := Nat.le_of_dvd hp hd
      omega

theorem mod_hit {m ui s : Nat} (hui : ui < 2 ^ m) (hs : s < 2 ^ m) :
    (ui + (s + 2 ^ m - ui) % 2 ^ m) % 2 ^ m = s := by
  rw [Nat.add_mod_mod]
  have : ui + (s + 2 ^ m - ui) = s + 2 ^ m := by omega
  rw [this, Nat.add_mod_right, Nat.mod_eq_of_lt hs]

/-- C10: cuckoo_hash::set terminates exactly when its probe ring contains an
empty slot or a slot storing u's key; when no slot of the ring is empty or
key-matching, the probe loop never terminates (every fuel bound yields none),
so termination of set requires that precondition. -/
theorem set_probe_termination_iff (ss is : Nat) (tab : Nat → Nat) (u v : Nat)
    (his : is ≤ ss) (hu : u < SIZE ss) :
    ((∃ fuel tab2, cuckoo_set ss is tab u v fuel = some tab2) ↔
      ∃ s < CUCKOO_SIZE ss is, setGood ss tab u s = true) ∧
    ((∀ s < CUCKOO_SIZE ss is, setGood ss tab u s = false) →
      ∀ fuel, cuckoo_set ss is tab u v fuel = none) := by
  have hm := cuckoo_size_eq his
  have hmask := cuckoo_mask_eq his
  have hui : u >>> is < 2 ^ (ss - is) :=
    shiftRight_lt_pow (show u < 2 ^ ss from hu) his
  constructor
  · constructor
    · rintro ⟨fuel, tab2, h⟩
      rw [cuckoo_set] at h
      cases hp : cuckoo_set_probe ss is tab u fuel with
      | none => rw [hp] at h; cases h
      | some s =>
        rw [cuckoo_set_probe, hmask] at hp
        obtain ⟨k, _, hs, hgs, _⟩ :=
          probeFirst_some_char _ _ fuel _ hui s hp
        refine ⟨s, ?_, hgs⟩
        rw [hm, hs]
        exact Nat.mod_lt _ (Nat.two_pow_pos _)
    · rintro ⟨s, hsC, hgs⟩
      rw [hm] at hsC
      refine ⟨(s + 2 ^ (ss - is) - u >>> is) % 2 ^ (ss - is) + 1, ?_⟩
      rw [cuckoo_set]
      cases hp : cuckoo_set_probe ss is tab u
          ((s + 2 ^ (ss - is) - u >>> is) % 2 ^ (ss - is) + 1) with
      | some s2 => exact ⟨_, rfl⟩
      | none =>
        rw [cuckoo_set_probe, hmask] at hp
        have hnone := (probeFirst_none_iff _ _ _ _ hui).mp hp
          ((s + 2 ^ (ss - is) - u >>> is) % 2 ^ (ss - is)) (by omega)
        rw [mod_hit hui hsC, hgs] at hnone
        cases hnone
  · intro hall fuel
    rw [cuckoo_set]
    have hp : cuckoo_set_probe ss is tab u fuel = none := by
      rw [cuckoo_set_probe, hmask]
      apply (probeFirst_none_iff _ _ _ _ hui).mpr
      intro k _
      apply hall
      rw [hm]
      exact Nat.mod_lt _ (Nat.two_pow_pos _)
    rw [hp]

/-- Witness for set_probe_termination_iff: on a one-key-per-slot full table
holding only key 0 (value word 1 everywhere), inserting key 3 never
terminates, whatever the fuel. -/
theorem set_probe_termination_iff_witness :
    cuckoo_set 2 1 (fun _ => 1) 3 0 5 = none :=
  (set_probe_termination_iff 2 1 (fun _ => 1) 3 0 (by decide)
    (by decide)).2 (by decide) 5

theorem probe_k_lt {ss is : Nat} {tab : Nat → Nat} {u s k : Nat}
    (hs : s = (u >>> is + k) % 2 ^ (ss - is))
    (hgs : setGood ss tab u s = true)
    (hprev : ∀ j < k, setGood ss tab u ((u >>> is + j) % 2 ^ (ss - is)) = false) :
    k < 2 ^ (ss - is) := by
  by_contra hge
  push_neg at hge
  have hj := hprev (k - 2 ^ (ss - is)) (by
    have := Nat.two_pow_pos (ss - is)
    omega)
  have heq : (u >>> is + (k - 2 ^ (ss - is))) % 2 ^ (ss - is) =
      (u >>> is + k) % 2 ^ (ss - is) := by
    conv_rhs => rw [show u >>> is + k =
      u >>> is + (k - 2 ^ (ss - is)) + 2 ^ (ss - is) by omega]
    rw [Nat.add_mod_right]
  rw [heq, ← hs, hgs] at hj
  cases hj

/-- C6: after set(u, v) on a nonzero node u below SIZE with v below SIZE and
probe distance within the drift bound, lookup(u) returns v; lookup of a key
stored in no slot returns the sentinel 0 (given a free slot to stop at); and
set on a key whose probe slot already stores that key overwrites that slot
and occupies no new slot. -/
theorem pathtable_set_lookup_correct (ss is : Nat) (his : is ≤ ss)
    (hss : ss ≤ 32) :
    (∀ tab u v fuel s, u ≠ 0 → u < SIZE ss → v < SIZE ss →
      cuckoo_set_probe ss is tab u fuel = some s →
      drift ss is s (u >>> is) < MAXDRIFT ss is →
      cuckoo_get ss is (writeArr tab s (niew ss u v)) u fuel (u >>> is) =
        some (.ok v)) ∧
    (∀ tab u, u < SIZE ss →
      (∀ i < CUCKOO_SIZE ss is, tab i ≠ 0 → tab i >>> ss ≠ u &&& KEYMASK ss) →
      (∃ i < CUCKOO_SIZE ss is, tab i = 0) →
      cuckoo_get ss is tab u (CUCKOO_SIZE ss is) (u >>> is) = some (.ok 0)) ∧
    (∀ tab u v fuel s, u ≠ 0 → u < SIZE ss → v < SIZE ss →
      cuckoo_set_probe ss is tab u fuel = some s → tab s ≠ 0 →
      tab s >>> ss = u &&& KEYMASK ss ∧
      ∀ i, (writeArr tab s (niew ss u v) i = 0 ↔ tab i = 0)) := by
  have hm := cuckoo_size_eq his
  have hmask := cuckoo_mask_eq his
  refine ⟨?_, ?_, ?_⟩
  · intro tab u v fuel s hu0 hu hv hset hdrift
    have hui : u >>> is < 2 ^ (ss - is) :=
      shiftRight_lt_pow (show u < 2 ^ ss from hu) his
    rw [cuckoo_set_probe, hmask] at hset
    obtain ⟨k, hkf, hs, hgs, hprev⟩ :=
      probeFirst_some_char _ _ _ _ hui s hset
    have hkC : k < 2 ^ (ss - is) := probe_k_lt hs hgs hprev
    have hdist : ∀ j < k, (u >>> is + j) % 2 ^ (ss - is) ≠ s := by
      intro j hj heq
      rw [hs] at heq
      have := mod_cycle_eq (by omega) hkC heq
      omega
    have hkey : niew ss u v >>> ss = u &&& KEYMASK ss := by
      rw [niew_key hss hu hv, key_self hss hu]
    have hgood2 : setGood ss (writeArr tab s (niew ss u v)) u s = true := by
      simp [setGood, writeArr_same, hkey]
    have hprev2 : ∀ j < k,
        setGood ss (writeArr tab s (niew ss u v)) u
          ((u >>> is + j) % 2 ^ (ss - is)) = false := by
      intro j hj
      rw [setGood_congr (writeArr_other _ _ (hdist j hj))]
      exact hprev j hj
    have hprobe2 : probeFirst (setGood ss (writeArr tab s (niew ss u v)) u)
        (2 ^ (ss - is) - 1) fuel (u >>> is) = some s := by
      have := probeFirst_first (setGood ss (writeArr tab s (niew ss u v)) u)
        (ss - is) fuel (u >>> is) k hui hkf (by rw [← hs]; exact hgood2) hprev2
      rwa [← hs] at this
    rw [← hmask] at hprobe2
    rw [cuckoo_get_at_probe ss is _ u fuel (u >>> is) s hprobe2]
    have hne : writeArr tab s (niew ss u v) s ≠ 0 := by
      rw [writeArr_same]
      exact niew_ne_zero hss hu0 hu hv
    rw [if_neg hne, if_pos hdrift, writeArr_same, niew_low hss hu hv]
  · intro tab u hu hnk hempty
    obtain ⟨i, hiC, hi0⟩ := hempty
    have hui : u >>> is < 2 ^ (ss - is) :=
      shiftRight_lt_pow (show u < 2 ^ ss from hu) his
    rw [hm] at hiC ⊢
    cases hp : probeFirst (setGood ss tab u) (2 ^ (ss - is) - 1)
        (2 ^ (ss - is)) (u >>> is) with
    | none =>
      have hnone := (probeFirst_none_iff _ _ _ _ hui).mp hp
        ((i + 2 ^ (ss - is) - u >>> is) % 2 ^ (ss - is))
        (Nat.mod_lt _ (Nat.two_pow_pos _))
      rw [mod_hit hui hiC] at hnone
      have : setGood ss tab u i = true := by simp [setGood, hi0]
      rw [this] at hnone
      cases hnone
    | some s =>
      obtain ⟨k, hkf, hs, hgs, _⟩ :=
        probeFirst_some_char _ _ _ _ hui s hp
      have hsC : s < 2 ^ (ss - is) := by
        rw [hs]; exact Nat.mod_lt _ (Nat.two_pow_pos _)
      have hs0 : tab s = 0 := by
        by_contra hne
        have hkeq : tab s >>> ss = u &&& KEYMASK ss := by
          have hdisj : tab s = 0 ∨ tab s >>> ss = u &&& KEYMASK ss := by
            simpa [setGood] using hgs
          rcases hdisj with h | h
          · exact absurd h hne
          · exact h
        exact hnk s (by rw [hm]; exact hsC) hne hkeq
      rw [← hmask] at hp
      rw [cuckoo_get_at_probe ss is tab u _ (u >>> is) s hp, if_pos hs0]
  · intro tab u v fuel s hu0 hu hv hset hne
    have hui : u >>> is < 2 ^ (ss - is) :=
      shiftRight_lt_pow (show u < 2 ^ ss from hu) his
    rw [cuckoo_set_probe, hmask] at hset
    obtain ⟨k, hkf, hs, hgs, hprev⟩ :=
      probeFirst_some_char _ _ _ _ hui s hset
    have hkeq : tab s >>> ss = u &&& KEYMASK ss := by
      have hdisj : tab s = 0 ∨ tab s >>> ss = u &&& KEYMASK ss := by
        simpa [setGood] using hgs
      rcases hdisj with h | h
      · exact absurd h hne
      · exact h
    refine ⟨hkeq, fun i => ?_⟩
    by_cases hi : i = s
    · subst hi
      rw [writeArr_same]
      constructor
      · intro h; exact absurd h (niew_ne_zero hss hu0 hu hv)
      · intro h; exact absurd h hne
    · rw [writeArr_other _ _ hi]

/-- Witness for pathtable_set_lookup_correct: inserting (5, 7) into the empty
table at SIZESHIFT = 20, IDXSHIFT = 6 and looking 5 up returns 7. -/
theorem pathtable_set_lookup_correct_witness :
    cuckoo_get 20 6 (writeArr (fun _ => 0) 0 (niew 20 5 7)) 5 1 (5 >>> 6) =
      some (.ok 7) :=
  (pathtable_set_lookup_correct 20 6 (by decide) (by decide)).1
    (fun _ => 0) 5 7 1 0 (by decide) (by decide) (by decide)
    (by decide) (by decide)

theorem cuckoo_get_ok_cases (ss is : Nat) (tab : Nat → Nat) (u : Nat) :
    ∀ fuel ui v, cuckoo_get ss is tab u fuel ui = some (.ok v) →
      (∃ s, tab s = 0 ∧ v = 0) ∨
      (∃ s, tab s ≠ 0 ∧ tab s >>> ss = u &&& KEYMASK ss ∧
        drift ss is s (u >>> is) < MAXDRIFT ss is ∧
        v = tab s &&& (SIZE ss - 1)) := by
  intro fuel
  induction fuel with
  | zero => intro ui v h; rw [cuckoo_get] at h; cases h
  | succ fuel ih =>
    intro ui v h
    rw [cuckoo_get] at h
    by_cases h0 : tab ui = 0
    · rw [if_pos h0] at h
      have hv : v = 0 := by
        have := Option.some.inj h
        injection this.symm  -- Except.ok 0 = Except.ok v
      exact Or.inl ⟨ui, h0, hv⟩
    · rw [if_neg h0] at h
      by_cases hm : tab ui >>> ss = u &&& KEYMASK ss
      · rw [if_pos hm] at h
        by_cases hd : drift ss is ui (u >>> is) < MAXDRIFT ss is
        · rw [if_pos hd] at h
          have hv : v = tab ui &&& (SIZE ss - 1) := by
            have := Option.some.inj h
            injection this.symm
          exact Or.inr ⟨ui, h0, hm, hd, hv⟩
        · rw [if_neg hd] at h
          have := Option.some.inj h
          injection this
      · rw [if_neg hm] at h
        exact ih _ v h

theorem cuckoo_get_error_cases (ss is : Nat) (tab : Nat → Nat) (u : Nat) :
    ∀ fuel ui, cuckoo_get ss is tab u fuel ui = some (.error ()) →
      ∃ s, tab s ≠ 0 ∧ tab s >>> ss = u &&& KEYMASK ss ∧
        ¬ drift ss is s (u >>> is) < MAXDRIFT ss is := by
  intro fuel
  induction fuel with
  | zero => intro ui h; rw [cuckoo_get] at h; cases h
  | succ fuel ih =>
    intro ui h
    rw [cuckoo_get] at h
    by_cases h0 : tab ui = 0
    · rw [if_pos h0] at h
      have := Option.some.inj h
      injection this
    · rw [if_neg h0] at h
      by_cases hm : tab ui >>> ss = u &&& KEYMASK ss
      · rw [if_pos hm] at h
        by_cases hd : drift ss is ui (u >>> is) < MAXDRIFT ss is
        · rw [if_pos hd] at h
          have := Option.some.inj h
          injection this
        · exact ⟨ui, h0, hm, hd⟩
      · rw [if_neg hm] at h
        exact ih _ h

/-- C9 (amended): only lookups enforce the drift bound.  A lookup that
returns a found node has passed the asserted drift check; a lookup that
aborts (the assert fires, fatally, with no retry) does so exactly on a key
match whose probe distance reaches MAXDRIFT; and insert performs no drift
check at all: with SIZESHIFT = 33, IDXSHIFT = 30, inserting key 3 into
tabNine completes by writing slot 2 at probe distance 2 = MAXDRIFT without
any failure being signalled. -/
theorem drift_check_only_on_lookup (ss is : Nat) (tab : Nat → Nat)
    (u fuel ui : Nat) :
    (∀ v, cuckoo_get ss is tab u fuel ui = some (.ok v) →
      (∃ s, tab s = 0 ∧ v = 0) ∨
      (∃ s, tab s ≠ 0 ∧ tab s >>> ss = u &&& KEYMASK ss ∧
        drift ss is s (u >>> is) < MAXDRIFT ss is ∧
        v = tab s &&& (SIZE ss - 1))) ∧
    (cuckoo_get ss is tab u fuel ui = some (.error ()) →
      ∃ s, tab s ≠ 0 ∧ tab s >>> ss = u &&& KEYMASK ss ∧
        ¬ drift ss is s (u >>> is) < MAXDRIFT ss is) ∧
    (cuckoo_set_probe 33 30 tabNine 3 8 = some 2 ∧
      (cuckoo_set 33 30 tabNine 3 5 8).isSome = true ∧
      MAXDRIFT 33 30 ≤ drift 33 30 2 (3 >>> 30)) :=
  ⟨fun v h => cuckoo_get_ok_cases ss is tab u fuel ui v h,
   fun h => cuckoo_get_error_cases ss is tab u fuel ui h,
   by decide, by decide, by decide⟩

/-- Witness for drift_check_only_on_lookup: a lookup in the empty table
returns the sentinel, matching the first disjunct. -/
theorem drift_check_only_on_lookup_witness :
    (∃ s, (fun _ : Nat => (0 : Nat)) s = 0 ∧ (0 : Nat) = 0) ∨
    (∃ s, (fun _ : Nat => (0 : Nat)) s ≠ 0 ∧
      (fun _ : Nat => (0 : Nat)) s >>> 2 = 1 &&& KEYMASK 2 ∧
      drift 2 1 s (1 >>> 1) < MAXDRIFT 2 1 ∧
      (0 : Nat) = (fun _ : Nat => (0 : Nat)) s &&& (SIZE 2 - 1)) :=
  (drift_check_only_on_lookup 2 1 (fun _ => 0) 1 1 0).1 0 rfl

/-- C9 counterexample: the insert of key 3 into tabNine (SIZESHIFT = 33,
IDXSHIFT = 30) needs probe distance 2 = MAXDRIFT from the natural slot yet
completes normally, writing slot 2; no fatal condition is raised, refuting
the claim that inserts exceeding the drift bound are detected. -/
theorem insert_over_drift_unchecked_cex :
    cuckoo_set_probe 33 30 tabNine 3 8 = some 2 ∧
    (cuckoo_set 33 30 tabNine 3 5 8).isSome = true ∧
    MAXDRIFT 33 30 ≤ drift 33 30 2 (3 >>> 30) := by
  refine ⟨by decide, by decide, by decide⟩

/-! ### path trail-bound behaviour -/

theorem pathSearch_some_char (us : Nat → Nat) (u : Nat) :
    ∀ n k, pathSearch us u n = some k ↔
      (k < n ∧ us k = u ∧ ∀ j, k < j → j < n → us j ≠ u) := by
  intro n
  induction n with
  | zero => intro k; simp [pathSearch]
  | succ n ih =>
    intro k
    rw [pathSearch]
    by_cases h : us n = u
    · rw [if_pos h]
      constructor
      · intro hs
        have hk : n = k := by injection hs
        subst hk
        exact ⟨by omega, h, fun j hj1 hj2 => by omega⟩
      · rintro ⟨hk, hku, hmax⟩
        by_cases hkn : k = n
        · rw [hkn]
        · exact absurd h (hmax n (by omega) (by omega))
    · rw [if_neg h]
      rw [ih k]
      constructor
      · rintro ⟨hk, hku, hmax⟩
        refine ⟨by omega, hku, fun j hj1 hj2 => ?_⟩
        by_cases hjn : j = n
        · rw [hjn]; exact h
        · exact hmax j hj1 (by omega)
      · rintro ⟨hk, hku, hmax⟩
        have hkn : k ≠ n := by
          intro hkn
          rw [hkn] at hku
          exact h hku
        exact ⟨by omega, hku, fun j hj1 hj2 => hmax j hj1 (by omega)⟩

theorem pathSearch_none_char (us : Nat → Nat) (u : Nat) :
    ∀ n, pathSearch us u n = none ↔ ∀ j < n, us j ≠ u := by
  intro n
  induction n with
  | zero => simp [pathSearch]
  | succ n ih =>
    rw [pathSearch]
    by_cases h : us n = u
    · rw [if_pos h]
      constructor
      · intro hs; cases hs
      · intro hall
        exact absurd h (hall n (by omega))
    · rw [if_neg h]
      rw [ih]
      constructor
      · intro hall j hj
        by_cases hjn : j = n
        · rw [hjn]; exact h
        · exact hall j (by omega)
      · intro hall j hj
        exact hall j (by omega)

/-- C8: when the trace reaches the MAXPATHLEN bound on a nonzero next node,
the trail is searched backwards for that node; if it is found at index k the
run reports an illegal cycle of length MAXPATHLEN - k (k being the largest
such index), otherwise it reports the maximum path length exceeded, and in
both cases the result is a fatal exit, never a normal return. -/
theorem path_trail_overflow_fatal (ss : Nat) (f : Nat → Nat)
    (us : Nat → Nat) (u nu : Nat) (hu : u ≠ 0)
    (hM : MAXPATHLEN ss ≤ nu + 1) :
    ((∃ k, k < MAXPATHLEN ss ∧ us k = u ∧
        (∀ j, k < j → j < MAXPATHLEN ss → us j ≠ u) ∧
        pathAux f (MAXPATHLEN ss) us u nu =
          .illegalCycle (MAXPATHLEN ss - k)) ∨
      ((∀ j < MAXPATHLEN ss, us j ≠ u) ∧
        pathAux f (MAXPATHLEN ss) us u nu = .maxPathExceeded)) ∧
    ∀ nu2 us2, pathAux f (MAXPATHLEN ss) us u nu ≠ .ok nu2 us2 := by
  have hstep : pathAux f (MAXPATHLEN ss) us u nu =
      match pathSearch us u (MAXPATHLEN ss) with
      | some k => .illegalCycle (MAXPATHLEN ss - k)
      | none => .maxPathExceeded := by
    rw [pathAux, if_neg hu, if_pos hM]
  cases hs : pathSearch us u (MAXPATHLEN ss) with
  | some k =>
    obtain ⟨hk, hku, hmax⟩ := (pathSearch_some_char us u _ k).mp hs
    rw [hs] at hstep
    exact ⟨Or.inl ⟨k, hk, hku, hmax, hstep⟩,
      fun nu2 us2 h => by rw [hstep] at h; cases h⟩
  | none =>
    have hall := (pathSearch_none_char us u _).mp hs
    rw [hs] at hstep
    exact ⟨Or.inr ⟨hall, hstep⟩,
      fun nu2 us2 h => by rw [hstep] at h; cases h⟩

/-- Witness for path_trail_overflow_fatal: SIZESHIFT = 3 gives
MAXPATHLEN = 16; with an all-zero trail and next node 5 at index 15 the
trace exits fatally. -/
theorem path_trail_overflow_fatal_witness :
    ((∃ k, k < MAXPATHLEN 3 ∧ (fun _ : Nat => (0 : Nat)) k = 5 ∧
        (∀ j, k < j → j < MAXPATHLEN 3 → (fun _ : Nat => (0 : Nat)) j ≠ 5) ∧
        pathAux (fun x => x) (MAXPATHLEN 3) (fun _ => 0) 5 15 =
          .illegalCycle (MAXPATHLEN 3 - k)) ∨
      ((∀ j < MAXPATHLEN 3, (fun _ : Nat => (0 : Nat)) j ≠ 5) ∧
        pathAux (fun x => x) (MAXPATHLEN 3) (fun _ => 0) 5 15 =
          .maxPathExceeded)) ∧
    ∀ nu2 us2, pathAux (fun x => x) (MAXPATHLEN 3) (fun _ => 0) 5 15 ≠
      .ok nu2 us2 :=
  path_trail_overflow_fatal 3 (fun x => x) (fun _ => 0) 5 15
    (by decide) (by decide)

/-! ### Overload gate -/

/-- C2 counterexample: at SIZESHIFT = 20, IDXSHIFT = 6 (capacity 16384) a
surviving count of 15000 gives load 91%, so the run aborts — but through
exit(0), the conventional success status, not an exit code signaling
failure. -/
theorem overload_exit_code_zero_cex :
    overloadGate 20 6 15000 = .overloaded "overloaded! exiting..." 0 ∧
    ¬ ((0 : Nat) ≠ 0) :=
  ⟨rfl, fun h => h rfl⟩

/-- C2 (amended): when the post-trim load percentage reaches 90, the run
prints the overload diagnostic and terminates before any cycle-detection
work — but with exit status 0, not a failure code; below 90 it proceeds. -/
theorem overload_gate_aborts (ss is cnt : Nat) :
    (90 ≤ 100 * cnt / CUCKOO_SIZE ss is →
      overloadGate ss is cnt = .overloaded "overloaded! exiting..." 0) ∧
    (100 * cnt / CUCKOO_SIZE ss is < 90 →
      overloadGate ss is cnt = .proceed) := by
  constructor
  · intro h; rw [overloadGate, if_pos h]
  · intro h; rw [overloadGate, if_neg (by omega)]

/-- Witness for overload_gate_aborts at load 91% and load 0%. -/
theorem overload_gate_aborts_witness :
    overloadGate 20 6 15000 = .overloaded "overloaded! exiting..." 0 ∧
    overloadGate 20 6 0 = .proceed :=
  ⟨(overload_gate_aborts 20 6 15000).1 (by decide),
   (overload_gate_aborts 20 6 0).2 (by decide)⟩

/-! ### Solution emission -/

theorem emitLoop_succ (sip : Nat → Nat × Nat) (ps nf : Nat)
    (alive : Nat → Bool) (H : Nat) (cycle0 : Finset (Nat × Nat)) :
    emitLoop sip ps nf alive (H + 1) cycle0 =
      emitStep sip ps nf alive (emitLoop sip ps nf alive H cycle0) H := by
  rw [emitLoop, emitLoop, List.range_succ, List.foldl_append,
    List.foldl_cons, List.foldl_nil]

theorem matchedUpTo_succ (sip : Nat → Nat × Nat) (alive : Nat → Bool)
    (H : Nat) (e : Nat × Nat) :
    matchedUpTo sip alive (H + 1) e =
      (matchedUpTo sip alive H e || (alive H && decide (sip H = e))) := by
  rw [matchedUpTo, matchedUpTo, List.range_succ, List.any_append]
  simp

theorem emit_printed_replicate (sip : Nat → Nat × Nat) (ps nf : Nat)
    (alive : Nat → Bool) (cycle0 : Finset (Nat × Nat)) :
    ∀ H, (emitLoop sip ps nf alive H cycle0).printed =
      List.replicate (emitLoop sip ps nf alive H cycle0).n nf := by
  intro H
  induction H with
  | zero => rfl
  | succ H ih =>
    rw [emitLoop_succ, emitStep]
    by_cases ha : alive H = true
    · rw [if_pos ha]
      by_cases hm : sip H ∈ (emitLoop sip ps nf alive H cycle0).pending
      · rw [if_pos hm]
        simp only [ih, List.replicate_succ']
      · rw [if_neg hm]
        exact ih
    · rw [if_neg ha]
      exact ih

/-- C1: the printf at line 315 prints the outer loop variable nonce, not the
scan variable nce, so the nonces emitted after the success marker are all
equal to the trigger nonce.  Evaluation at the failing input — all edges
alive, cycle edges regenerated by nonces 1, 3, 4 and 6, trigger nonce 1 —
shows the output is 1 1 1 1 (with the internal counter still asserting 4
matches), not the distinct ascending match nonces 1 3 4 6. -/
theorem solution_line_prints_trigger_nonce :
    (emitLoop sipToy 4 1 (fun _ => true) 8 cycleToy).printed = [1, 1, 1, 1] ∧
    (emitLoop sipToy 4 1 (fun _ => true) 8 cycleToy).n = 4 ∧
    (List.range 8).filter
        (fun m => (fun _ => true : Nat → Bool) m &&
          decide (sipToy m ∈ cycleToy)) = [1, 3, 4, 6] ∧
    ¬ (emitLoop sipToy 4 1 (fun _ => true) 8 cycleToy).printed = [1, 3, 4, 6] ∧
    ¬ (emitLoop sipToy 4 1 (fun _ => true) 8 cycleToy).printed.Nodup := by
  refine ⟨by decide, by decide, by decide, by decide, by decide⟩

theorem emit_n_card (sip : Nat → Nat × Nat) (ps nf : Nat)
    (alive : Nat → Bool) (cycle0 : Finset (Nat × Nat)) (hps : 2 < ps) :
    ∀ H, (emitLoop sip ps nf alive H cycle0).n +
      (emitLoop sip ps nf alive H cycle0).pending.card = cycle0.card := by
  intro H
  induction H with
  | zero => simp [emitLoop]
  | succ H ih =>
    rw [emitLoop_succ, emitStep]
    by_cases ha : alive H = true
    · rw [if_pos ha]
      by_cases hm : sip H ∈ (emitLoop sip ps nf alive H cycle0).pending
      · rw [if_pos hm]
        simp only [if_pos hps]
        have hc := Finset.card_erase_of_mem hm
        have hpos : 0 < (emitLoop sip ps nf alive H cycle0).pending.card :=
          Finset.card_pos.mpr ⟨_, hm⟩
        omega
      · rw [if_neg hm]
        exact ih
    · rw [if_neg ha]
      exact ih

theorem emit_pending_unmatched (sip : Nat → Nat × Nat) (ps nf : Nat)
    (alive : Nat → Bool) (cycle0 : Finset (Nat × Nat)) (hps : 2 < ps) :
    ∀ H, ∀ e ∈ (emitLoop sip ps nf alive H cycle0).pending,
      matchedUpTo sip alive H e = false := by
  intro H
  induction H with
  | zero =>
    intro e _
    rfl
  | succ H ih =>
    intro e he
    rw [emitLoop_succ, emitStep] at he
    rw [matchedUpTo_succ]
    by_cases ha : alive H = true
    · rw [if_pos ha] at he
      by_cases hm : sip H ∈ (emitLoop sip ps nf alive H cycle0).pending
      · rw [if_pos hm] at he
        simp only [if_pos hps] at he
        obtain ⟨hne, hmem⟩ := Finset.mem_erase.mp he
        rw [ih e hmem, ha]
        have : decide (sip H = e) = false := by
          simp
          intro hc
          exact hne hc.symm
        rw [this]
        rfl
      · rw [if_neg hm] at he
        have hne : sip H ≠ e := by
          intro hc
          rw [hc] at hm
          exact hm he
        rw [ih e he, ha]
        have : decide (sip H = e) = false := by simp [hne]
        rw [this]
        rfl
    · rw [if_neg ha] at he
      rw [ih e he]
      cases hav : alive H
      · rfl
      · exact absurd hav ha

/-- C4 (amended): when PROOFSIZE exceeds 2, a matched edge is removed from
the pending cycle-edge set the moment its nonce is emitted (for
PROOFSIZE = 2 the erase at line 317 is deliberately skipped so both nonces
of the degenerate two-edge cycle can match the single undirected pair); and
when every collected cycle edge is regenerated by some alive nonce in range,
exactly cycle-card nonces are matched, so with PROOFSIZE collected edges the
assertion n == PROOFSIZE at line 321 holds. -/
theorem solution_assembly_erase_and_count (sip : Nat → Nat × Nat)
    (ps nf : Nat) (alive : Nat → Bool) :
    (∀ s nce, 2 < ps → alive nce = true → sip nce ∈ s.pending →
      (emitStep sip ps nf alive s nce).pending =
        s.pending.erase (sip nce)) ∧
    (∀ H cycle0, 2 < ps →
      (∀ e ∈ cycle0, matchedUpTo sip alive H e = true) →
      (emitLoop sip ps nf alive H cycle0).n = cycle0.card) ∧
    (∀ H cycle0, 2 < ps →
      (∀ e ∈ cycle0, matchedUpTo sip alive H e = true) →
      cycle0.card = ps →
      (emitLoop sip ps nf alive H cycle0).n = ps) := by
  have hpend : ∀ H cycle0, 2 < ps →
      (∀ e ∈ cycle0, matchedUpTo sip alive H e = true) →
      (emitLoop sip ps nf alive H cycle0).pending ⊆ cycle0 →
      (emitLoop sip ps nf alive H cycle0).pending = ∅ := by
    intro H cycle0 hps hcov hsub
    by_contra hne
    obtain ⟨e, he⟩ := Finset.nonempty_iff_ne_empty.mpr hne
    have h1 := emit_pending_unmatched sip ps nf alive cycle0 hps H e he
    have h2 := hcov e (hsub he)
    rw [h1] at h2
    cases h2
  have hsub : ∀ H cycle0,
      (emitLoop sip ps nf alive H cycle0).pending ⊆ cycle0 := by
    intro H cycle0
    induction H with
    | zero =>
      intro e he
      simpa [emitLoop] using he
    | succ H ih =>
      rw [emitLoop_succ, emitStep]
      by_cases ha : alive H = true
      · rw [if_pos ha]
        by_cases hm : sip H ∈ (emitLoop sip ps nf alive H cycle0).pending
        · rw [if_pos hm]
          simp only
          split
          · exact fun e he => ih (Finset.erase_subset _ _ he)
          · exact ih
        · rw [if_neg hm]
          exact ih
      · rw [if_neg ha]
        exact ih
  refine ⟨?_, ?_, ?_⟩
  · intro s nce hps ha hm
    rw [emitStep, if_pos ha, if_pos hm]
    simp only [if_pos hps]
  · intro H cycle0 hps hcov
    have h1 := emit_n_card sip ps nf alive cycle0 hps H
    have h2 := hpend H cycle0 hps hcov (hsub H cycle0)
    rw [h2] at h1
    simpa using h1
  · intro H cycle0 hps hcov hcard
    have h1 := emit_n_card sip ps nf alive cycle0 hps H
    have h2 := hpend H cycle0 hps hcov (hsub H cycle0)
    rw [h2] at h1
    simp at h1
    omega

/-- Witness for solution_assembly_erase_and_count at the C1 toy instance:
PROOFSIZE = 4, all 4 cycle edges covered, so n = 4. -/
theorem solution_assembly_erase_and_count_witness :
    (emitLoop sipToy 4 1 (fun _ => true) 8 cycleToy).n = 4 :=
  (solution_assembly_erase_and_count sipToy 4 1 (fun _ => true)).2.2
    8 cycleToy (by decide) (by decide) (by decide)

/-! ### Word-scan and block-list lemmas -/

theorem shiftR1_lt {a : Nat} (h : a ≠ 0) : a >>> 1 < a := by
  rw [Nat.shiftRight_eq_div_pow]
  exact Nat.div_lt_self (by omega) (by omega)

theorem and1_eq_testBit (a : Nat) : (a &&& 1 = 1) ↔ a.testBit 0 = true := by
  have h := Nat.and_two_pow a 0
  simp only [pow_zero, mul_one] at h
  rw [h]
  cases a.testBit 0 <;> simp

theorem scanBits_eq_fold {σ : Type} (act : Nat → σ → σ) :
    ∀ a32 b (s : σ), scanBits act a32 b s =
      (bitNonces a32 b).foldl (fun s n => act n s) s := by
  intro a32
  induction a32 using Nat.strong_induction_on with
  | _ a32 ih =>
    intro b s
    rw [scanBits, bitNonces]
    by_cases h0 : a32 = 0
    · simp [h0]
    · rw [if_neg h0, if_neg h0, List.foldl_append]
      by_cases hb : a32 &&& 1 = 1
      · rw [if_pos hb, if_pos hb, ih _ (shiftR1_lt h0)]
        rfl
      · rw [if_neg hb, if_neg hb, ih _ (shiftR1_lt h0)]
        rfl

theorem bitNonces_count (x : Nat) :
    ∀ a32 b, (bitNonces a32 b).count x =
      if b ≤ x ∧ a32.testBit (x - b) = true then 1 else 0 := by
  intro a32
  induction a32 using Nat.strong_induction_on with
  | _ a32 ih =>
    intro b
    rw [bitNonces]
    by_cases h0 : a32 = 0
    · rw [if_pos h0]
      subst h0
      simp [Nat.zero_testBit]
    · rw [if_neg h0, List.count_append, ih _ (shiftR1_lt h0)]
      have htail : ∀ j, (a32 >>> 1).testBit j = a32.testBit (1 + j) :=
        fun j => Nat.testBit_shiftRight a32
      by_cases hxb : x = b
      · subst hxb
        have htl : ¬ (x + 1 ≤ x ∧ (a32 >>> 1).testBit (x - (x + 1)) = true) := by
          rintro ⟨hc, _⟩
          omega
        rw [if_neg htl, Nat.sub_self]
        by_cases hb : a32 &&& 1 = 1
        · rw [if_pos hb]
          have hbit : a32.testBit 0 = true := (and1_eq_testBit a32).mp hb
          simp [List.count_cons, hbit]
        · rw [if_neg hb]
          have hbit : a32.testBit 0 = false := by
            cases hc : a32.testBit 0
            · rfl
            · exact absurd ((and1_eq_testBit a32).mpr hc) hb
          simp [hbit]
      · have hhead : (if a32 &&& 1 = 1 then [b] else []).count x = 0 := by
          by_cases hb : a32 &&& 1 = 1
          · rw [if_pos hb]
            simp [List.count_cons, hxb]
          · rw [if_neg hb]
            rfl
        rw [hhead, Nat.zero_add]
        by_cases hx1 : b + 1 ≤ x
        · have harith : 1 + (x - (b + 1)) = x - b := by omega
          have hbit : (a32 >>> 1).testBit (x - (b + 1)) = a32.testBit (x - b) := by
            rw [Nat.testBit_shiftRight, harith]
          rw [hbit]
          by_cases hc : b ≤ x ∧ a32.testBit (x - b) = true
          · rw [if_pos hc, if_pos ⟨by omega, hc.2⟩]
          · rw [if_neg hc, if_neg (fun h => hc ⟨by omega, h.2⟩)]
        · have hnot1 : ¬ (b + 1 ≤ x ∧ (a32 >>> 1).testBit (x - (b + 1)) = true) :=
            fun h => hx1 h.1
          have hnot2 : ¬ (b ≤ x ∧ a32.testBit (x - b) = true) := by
            rintro ⟨h1, _⟩
            omega
          rw [if_neg hnot1, if_neg hnot2]

theorem blockList_count (x : Nat) :
    ∀ fuel H s b, 0 < s → H ≤ fuel * s + b →
      (blockList H s fuel b).count x =
        if b ≤ x ∧ x < H ∧ s ∣ (x - b) then 1 else 0 := by
  intro fuel
  induction fuel with
  | zero =>
    intro H s b _ hcov
    have hn : ¬ (b ≤ x ∧ x < H ∧ s ∣ (x - b)) := by
      rintro ⟨h1, h2, _⟩
      simp at hcov
      omega
    rw [blockList, if_neg hn]
    rfl
  | succ fuel ih =>
    intro H s b hs hcov
    have hcov2 : H ≤ fuel * s + (b + s) := by
      have h1 : (fuel + 1) * s = fuel * s + s := by rw [Nat.succ_mul]
      omega
    rw [blockList]
    by_cases hb : b < H
    · rw [if_pos hb, List.count_cons, ih H s (b + s) hs hcov2]
      by_cases hxb : x = b
      · have hrest : ¬ (b + s ≤ x ∧ x < H ∧ s ∣ (x - (b + s))) := by
          rintro ⟨h1, _, _⟩
          omega
        have hbeq : (b == x) = true := by simp [hxb]
        have hcond : b ≤ x ∧ x < H ∧ s ∣ (x - b) := by
          refine ⟨by omega, by omega, ?_⟩
          have : x - b = 0 := by omega
          rw [this]
          exact Dvd.intro 0 rfl
        rw [if_neg hrest, hbeq, if_pos hcond]
        rfl
      · have hbeq : (b == x) = false := by
          simp only [beq_eq_false_iff_ne]
          exact fun h => hxb h.symm
        rw [hbeq,
          show (if ((false : Bool) = true) then (1 : Nat) else 0) = 0 from rfl,
          Nat.add_zero]
        by_cases hc : b + s ≤ x ∧ x < H ∧ s ∣ (x - (b + s))
        · obtain ⟨c, hcc⟩ := hc.2.2
          have hmul : s * (c + 1) = s * c + s := Nat.mul_succ s c
          have hcond : b ≤ x ∧ x < H ∧ s ∣ (x - b) := by
            refine ⟨by omega, hc.2.1, ⟨c + 1, by omega⟩⟩
          rw [if_pos hc, if_pos hcond]
        · have hcond : ¬ (b ≤ x ∧ x < H ∧ s ∣ (x - b)) := by
            rintro ⟨h1, h2, c, hcc⟩
            apply hc
            match c with
            | 0 =>
              exfalso
              simp at hcc
              omega
            | c + 1 =>
              have hmul : s * (c + 1) = s * c + s := Nat.mul_succ s c
              exact ⟨by omega, h2, ⟨c, by omega⟩⟩
          rw [if_neg hc, if_neg hcond]
    · rw [if_neg hb]
      have hn : ¬ (b ≤ x ∧ x < H ∧ s ∣ (x - b)) := by
        rintro ⟨h1, h2, _⟩
        omega
      rw [if_neg hn]
      rfl

theorem blockList_mem {H s : Nat} :
    ∀ fuel b b2, b2 ∈ blockList H s fuel b → ∃ j, b2 = b + j * s ∧ b2 < H := by
  intro fuel
  induction fuel with
  | zero =>
    intro b b2 h
    rw [blockList] at h
    cases h
  | succ fuel ih =>
    intro b b2 h
    rw [blockList] at h
    by_cases hb : b < H
    · rw [if_pos hb] at h
      rcases List.mem_cons.mp h with heq | htail
      · exact ⟨0, by omega, by omega⟩
      · obtain ⟨j, hj, hlt⟩ := ih (b + s) b2 htail
        have hmul : (j + 1) * s = j * s + s := Nat.succ_mul j s
        exact ⟨j + 1, by omega, hlt⟩
    · rw [if_neg hb] at h
      cases h

theorem count_flatMap_sum {α : Type} (f : α → List Nat) (x : Nat) :
    ∀ l : List α, (l.flatMap f).count x =
      (l.map (fun a => (f a).count x)).sum := by
  intro l
  induction l with
  | nil => rfl
  | cons a l ih =>
    rw [List.flatMap_cons, List.count_append, List.map_cons, List.sum_cons,
      ih]

theorem sum_if_eq (X c : Nat) :
    ∀ l : List Nat,
      (l.map (fun b => if b = X then c else 0)).sum = l.count X * c := by
  intro l
  induction l with
  | nil => simp
  | cons b l ih =>
    rw [List.map_cons, List.sum_cons, ih, List.count_cons]
    by_cases hb : b = X
    · have hbeq : (b == X) = true := by simp [hb]
      rw [if_pos hb, hbeq,
        show (if ((true : Bool) = true) then (1 : Nat) else 0) = 1 from rfl]
      have h1 : (l.count X + 1) * c = l.count X * c + c := by rw [Nat.succ_mul]
      omega
    · have hbeq : (b == X) = false := by simp [hb]
      rw [if_neg hb, hbeq]
      simp

theorem shrinking_block_testBit (ws : Nat → Nat) (b j : Nat)
    (hj : j < 32) :
    (shrinking_block ws b).testBit j = !(ws (b / 32)).testBit j := by
  rw [shrinking_block, Nat.testBit_xor, Nat.testBit_two_pow_sub_one]
  simp [hj]

theorem shrinking_block_lt (ws : Nat → Nat) (b : Nat)
    (hw : ws (b / 32) < 2 ^ 32) : shrinking_block ws b < 2 ^ 32 := by
  rw [shrinking_block]
  exact Nat.xor_lt_two_pow (by omega) hw

theorem testBit_ge_32 {a j : Nat} (ha : a < 2 ^ 32) (hj : 32 ≤ j) :
    a.testBit j = false :=
  Nat.testBit_lt_two_pow
    (lt_of_lt_of_le ha (Nat.pow_le_pow_right (by omega) hj))

theorem bitNonces_block_count (x b : Nat) (ws : Nat → Nat)
    (hw : ws (b / 32) < 2 ^ 32) (hb : 32 ∣ b) :
    (bitNonces (shrinking_block ws b) b).count x =
      if b = 32 * (x / 32) ∧ shrinking_test ws x = true then 1 else 0 := by
  rw [bitNonces_count]
  by_cases hc1 : b ≤ x ∧ x - b < 32
  · have hbx : b = 32 * (x / 32) := by
      obtain ⟨m, hm⟩ := hb
      omega
    have hxb : x - b = x % 32 := by omega
    have hword : b / 32 = x / 32 := by omega
    rw [hxb]
    have hbit : (shrinking_block ws b).testBit (x % 32) =
        !(ws (x / 32)).testBit (x % 32) := by
      rw [shrinking_block_testBit ws b (x % 32) (by omega), hword]
    rw [hbit, shrinking_test_eq]
    by_cases ht : (!(ws (x / 32)).testBit (x % 32)) = true
    · rw [if_pos ⟨hc1.1, ht⟩, if_pos ⟨hbx, ht⟩]
    · rw [if_neg (fun h => ht h.2), if_neg (fun h => ht h.2)]
  · have hnot1 : ¬ (b ≤ x ∧
        (shrinking_block ws b).testBit (x - b) = true) := by
      rintro ⟨h1, h2⟩
      have h32 : 32 ≤ x - b := by omega
      rw [testBit_ge_32 (shrinking_block_lt ws b hw) h32] at h2
      cases h2
    have hnot2 : ¬ (b = 32 * (x / 32) ∧ shrinking_test ws x = true) := by
      rintro ⟨h1, _⟩
      apply hc1
      constructor <;> omega
    rw [if_neg hnot1, if_neg hnot2]

theorem threadNonces_count (x H T t : Nat) (ws : Nat → Nat)
    (hw : ∀ i, ws i < 2 ^ 32) (hT : 0 < T) (ht : t < T) (h32 : 32 ∣ H) :
    (threadNonces H T t ws).count x =
      if x < H ∧ (x / 32) % T = t ∧ shrinking_test ws x = true then 1
      else 0 := by
  rw [threadNonces, count_flatMap_sum]
  have hmap : ((blockList H (T * 32) H (t * 32)).map
      (fun b => (bitNonces (shrinking_block ws b) b).count x)) =
      ((blockList H (T * 32) H (t * 32)).map
        (fun b => if b = 32 * (x / 32) then
          (if shrinking_test ws x = true then 1 else 0) else 0)) := by
    apply List.map_congr_left
    intro b hbmem
    obtain ⟨j, hj, hlt⟩ := blockList_mem H (t * 32) b hbmem
    have hdvd : 32 ∣ b := by
      refine ⟨t + j * T, ?_⟩
      have h1 : j * (T * 32) = (j * T) * 32 := by ring
      have h2 : 32 * (t + j * T) = 32 * t + 32 * (j * T) := by ring
      omega
    rw [bitNonces_block_count x b ws (hw _) hdvd]
    by_cases hbx : b = 32 * (x / 32)
    · rw [if_pos hbx]
      by_cases ht2 : shrinking_test ws x = true
      · rw [if_pos ⟨hbx, ht2⟩, if_pos ht2]
      · rw [if_neg (fun h => ht2 h.2), if_neg ht2]
    · rw [if_neg (fun h => hbx h.1), if_neg hbx]
  rw [hmap, sum_if_eq (32 * (x / 32)) _]
  have hs : 0 < T * 32 := by
    have := Nat.mul_pos hT (show 0 < 32 by omega)
    omega
  have hcov : H ≤ H * (T * 32) + t * 32 := by
    have h1 : H * 1 ≤ H * (T * 32) := Nat.mul_le_mul_left H hs
    omega
  rw [blockList_count (32 * (x / 32)) H H (T * 32) (t * 32) hs hcov]
  obtain ⟨mH, hmH⟩ := h32
  by_cases hA : t * 32 ≤ 32 * (x / 32) ∧ 32 * (x / 32) < H ∧
      (T * 32) ∣ (32 * (x / 32) - t * 32)
  · obtain ⟨c, hc⟩ := hA.2.2
    have e1 : T * 32 * c = 32 * (T * c) := by ring
    have hdivq : x / 32 = t + T * c := by omega
    have hmodt : (x / 32) % T = t := by
      rw [hdivq, Nat.add_mul_mod_self_left]
      exact Nat.mod_eq_of_lt ht
    have hxH : x < H := by omega
    have hB : x < H ∧ (x / 32) % T = t ∧ shrinking_test ws x = true ↔
        shrinking_test ws x = true := by
      constructor
      · exact fun h => h.2.2
      · exact fun h => ⟨hxH, hmodt, h⟩
    rw [if_pos hA]
    by_cases ht2 : shrinking_test ws x = true
    · rw [if_pos ht2, if_pos (hB.mpr ht2)]
    · rw [if_neg ht2, if_neg (fun h => ht2 (hB.mp h))]
  · rw [if_neg hA]
    have hB : ¬ (x < H ∧ (x / 32) % T = t ∧ shrinking_test ws x = true) := by
      rintro ⟨hxH, hmodt, _⟩
      apply hA
      have hdm := Nat.div_add_mod (x / 32) T
      rw [hmodt] at hdm
      have e2 : T * 32 * (x / 32 / T) = 32 * (T * (x / 32 / T)) := by ring
      refine ⟨by omega, by omega, ⟨x / 32 / T, by omega⟩⟩
    rw [if_neg hB]
    omega

theorem allNonces_count (x H T : Nat) (ws : Nat → Nat)
    (hw : ∀ i, ws i < 2 ^ 32) (hT : 0 < T) (h32 : 32 ∣ H) :
    (allNonces H T ws).count x =
      if x < H ∧ shrinking_test ws x = true then 1 else 0 := by
  rw [allNonces, count_flatMap_sum]
  have hmap : ((List.range T).map (fun t => (threadNonces H T t ws).count x)) =
      ((List.range T).map (fun t => if t = (x / 32) % T then
        (if x < H ∧ shrinking_test ws x = true then 1 else 0) else 0)) := by
    apply List.map_congr_left
    intro t htmem
    have ht : t < T := List.mem_range.mp htmem
    rw [threadNonces_count x H T t ws hw hT ht h32]
    by_cases hteq : t = (x / 32) % T
    · rw [if_pos hteq]
      by_cases hc : x < H ∧ shrinking_test ws x = true
      · rw [if_pos ⟨hc.1, hteq.symm, hc.2⟩, if_pos hc]
      · rw [if_neg (fun h => hc ⟨h.1, h.2.2⟩), if_neg hc]
    · rw [if_neg (fun h => hteq h.2.1.symm), if_neg hteq]
  rw [hmap, sum_if_eq ((x / 32) % T) _]
  have hmem : (x / 32) % T ∈ List.range T :=
    List.mem_range.mpr (Nat.mod_lt _ hT)
  rw [List.count_eq_one_of_mem (List.nodup_range T) hmem, Nat.one_mul]

theorem allNonces_perm (H T1 T2 : Nat) (ws : Nat → Nat)
    (hw : ∀ i, ws i < 2 ^ 32) (hT1 : 0 < T1) (hT2 : 0 < T2)
    (h32 : 32 ∣ H) : (allNonces H T1 ws).Perm (allNonces H T2 ws) := by
  rw [List.perm_iff_count]
  intro a
  rw [allNonces_count a H T1 ws hw hT1 h32,
    allNonces_count a H T2 ws hw hT2 h32]

theorem foldl_flatMap {α σ : Type} (f : α → List Nat) (g : σ → Nat → σ) :
    ∀ (l : List α) (s : σ),
      (l.flatMap f).foldl g s = l.foldl (fun s a => (f a).foldl g s) s := by
  intro l
  induction l with
  | nil => intro s; rfl
  | cons a l ih =>
    intro s
    rw [List.flatMap_cons, List.foldl_append, List.foldl_cons, ih]

theorem tw_fold_append (l1 l2 : List Nat) (bits : Nat → Nat) :
    tw_fold (l1 ++ l2) bits = tw_fold l2 (tw_fold l1 bits) := by
  rw [tw_fold, tw_fold, tw_fold, List.foldl_append]

theorem foldl_countAct (dip : Nat → Nat → Nat) (pb uorv part : Nat) :
    ∀ (l : List Nat) (nl : Nat → Nat),
      l.foldl (fun nl n => countAct dip pb uorv part n nl) nl =
        tw_fold (l.filterMap (countMark dip pb uorv part)) nl := by
  intro l
  induction l with
  | nil => intro nl; rfl
  | cons n l ih =>
    intro nl
    rw [List.foldl_cons, ih, List.filterMap_cons]
    by_cases hq : dip n uorv &&& PART_MASK pb = part
    · have h1 : countAct dip pb uorv part n nl =
          tw_set nl (dip n uorv >>> pb) := by
        rw [countAct, if_pos hq]
      have h2 : countMark dip pb uorv part n =
          some (dip n uorv >>> pb) := by
        rw [countMark, if_pos hq]
      rw [h1, h2]
      rfl
    · have h1 : countAct dip pb uorv part n nl = nl := by
        rw [countAct, if_neg hq]
      have h2 : countMark dip pb uorv part n = none := by
        rw [countMark, if_neg hq]
      rw [h1, h2]

theorem count_thread_eq (dip : Nat → Nat → Nat)
    (pb H T uorv part : Nat) (alive : Nat → Nat) (t : Nat)
    (nl : Nat → Nat) :
    count_thread dip pb H T uorv part alive t nl =
      tw_fold ((threadNonces H T t alive).filterMap
        (countMark dip pb uorv part)) nl := by
  rw [count_thread, threadNonces]
  have hfun : (fun nl b => scanBits (countAct dip pb uorv part)
        (shrinking_block alive b) b nl) =
      (fun nl b => (bitNonces (shrinking_block alive b) b).foldl
        (fun s n => countAct dip pb uorv part n s) nl) := by
    funext nl b
    exact scanBits_eq_fold _ _ _ _
  rw [hfun, ← foldl_flatMap, foldl_countAct]

theorem count_node_deg_eq (dip : Nat → Nat → Nat)
    (pb H T uorv part : Nat) (ws : Nat → Nat) :
    count_node_deg dip pb H T uorv part ws =
      tw_fold ((allNonces H T ws).filterMap
        (countMark dip pb uorv part)) tw_zero := by
  rw [count_node_deg, allNonces]
  have hgen : ∀ (lt : List Nat) (nl : Nat → Nat),
      lt.foldl (fun nl t => count_thread dip pb H T uorv part ws t nl) nl =
        tw_fold ((lt.flatMap (fun t => threadNonces H T t ws)).filterMap
          (countMark dip pb uorv part)) nl := by
    intro lt
    induction lt with
    | nil => intro nl; rfl
    | cons t lt ih =>
      intro nl
      rw [List.foldl_cons, ih, List.flatMap_cons, List.filterMap_append,
        tw_fold_append, count_thread_eq]
  exact hgen (List.range T) tw_zero

theorem count_node_deg_indep (dip : Nat → Nat → Nat)
    (pb H T1 T2 uorv part : Nat) (ws : Nat → Nat)
    (hw : ∀ i, ws i < 2 ^ 32) (hT1 : 0 < T1) (hT2 : 0 < T2)
    (h32 : 32 ∣ H) :
    ∀ u, tw_test (count_node_deg dip pb H T1 uorv part ws) u =
      tw_test (count_node_deg dip pb H T2 uorv part ws) u := by
  intro u
  rw [count_node_deg_eq, count_node_deg_eq, tw_test_eq_high,
    tw_test_eq_high, (tw_fold_zero_char _ u).2, (tw_fold_zero_char _ u).2]
  have hperm := (allNonces_perm H T1 T2 ws hw hT1 hT2 h32).filterMap
    (countMark dip pb uorv part)
  rw [hperm.count_eq u]

theorem killAct_test (dip : Nat → Nat → Nat) (pb uorv part : Nat)
    (nl : Nat → Nat) (m : Nat) (ws : Nat → Nat) (n : Nat) :
    (shrinking_test (killAct dip pb uorv part nl m ws) n = true) ↔
      (shrinking_test ws n = true ∧
        ¬ (n = m ∧ killCond dip pb uorv part nl n = true)) := by
  rw [killAct]
  by_cases hq : dip m uorv &&& PART_MASK pb = part
  · rw [if_pos hq]
    by_cases hz : tw_test nl (dip m uorv >>> pb) = 0
    · rw [if_pos hz]
      rw [shrinking_test_reset]
      by_cases hnm : n = m
      · subst hnm
        have hkc : killCond dip pb uorv part nl n = true := by
          rw [killCond]
          simp [hq, hz]
        simp [hkc]
      · have hne : (n == m) = false := by
          simp only [beq_eq_false_iff_ne]
          exact hnm
        simp [hne, hnm]
    · rw [if_neg hz]
      by_cases hnm : n = m
      · subst hnm
        have hkc : killCond dip pb uorv part nl n = false := by
          rw [killCond]
          simp [hz]
        simp [hkc]
      · simp [hnm]
  · rw [if_neg hq]
    by_cases hnm : n = m
    · subst hnm
      have hkc : killCond dip pb uorv part nl n = false := by
        rw [killCond]
        simp [hq]
      simp [hkc]
    · simp [hnm]

theorem foldKill_test (dip : Nat → Nat → Nat) (pb uorv part : Nat)
    (nl : Nat → Nat) :
    ∀ (L : List Nat) (ws : Nat → Nat) (n : Nat),
      (shrinking_test
        (L.foldl (fun ws m => killAct dip pb uorv part nl m ws) ws) n =
          true) ↔
        (shrinking_test ws n = true ∧
          ¬ (n ∈ L ∧ killCond dip pb uorv part nl n = true)) := by
  intro L
  induction L with
  | nil =>
    intro ws n
    simp
  | cons m L ih =>
    intro ws n
    rw [List.foldl_cons, ih, killAct_test]
    simp only [List.mem_cons]
    constructor
    · rintro ⟨⟨h1, h2⟩, h3⟩
      refine ⟨h1, ?_⟩
      rintro ⟨hm | hm, hkc⟩
      · exact h2 ⟨hm, hkc⟩
      · exact h3 ⟨hm, hkc⟩
    · rintro ⟨h1, h2⟩
      refine ⟨⟨h1, ?_⟩, ?_⟩
      · rintro ⟨hm, hkc⟩
        exact h2 ⟨Or.inl hm, hkc⟩
      · rintro ⟨hm, hkc⟩
        exact h2 ⟨Or.inr hm, hkc⟩

theorem killAct_word (dip : Nat → Nat → Nat) (pb uorv part : Nat)
    (nl : Nat → Nat) (m : Nat) (ws : Nat → Nat) {j : Nat}
    (hj : m / 32 ≠ j) : killAct dip pb uorv part nl m ws j = ws j := by
  rw [killAct]
  split
  · split
    · rw [shrinking_reset]
      exact writeArr_other _ _ (fun h => hj h.symm)
    · rfl
  · rfl

theorem foldKill_word (dip : Nat → Nat → Nat) (pb uorv part : Nat)
    (nl : Nat → Nat) :
    ∀ (L : List Nat) (ws : Nat → Nat) (j : Nat),
      (∀ n ∈ L, n / 32 ≠ j) →
      (L.foldl (fun ws m => killAct dip pb uorv part nl m ws) ws) j =
        ws j := by
  intro L
  induction L with
  | nil => intro ws j _; rfl
  | cons m L ih =>
    intro ws j hall
    rw [List.foldl_cons, ih _ _ (fun n hn => hall n (List.mem_cons_of_mem _ hn)),
      killAct_word dip pb uorv part nl m ws (hall m (List.mem_cons_self _ _))]

theorem killAct_bound (dip : Nat → Nat → Nat) (pb uorv part : Nat)
    (nl : Nat → Nat) (m : Nat) (ws : Nat → Nat)
    (hw : ∀ i, ws i < 2 ^ 32) :
    ∀ i, killAct dip pb uorv part nl m ws i < 2 ^ 32 := by
  intro i
  rw [killAct]
  split
  · split
    · rw [shrinking_reset, writeArr]
      split
      · apply Nat.or_lt_two_pow (hw _)
        rw [Nat.one_shiftLeft]
        exact Nat.pow_lt_pow_right (by omega) (by omega)
      · exact hw i
    · exact hw i
  · exact hw i

theorem foldKill_bound (dip : Nat → Nat → Nat) (pb uorv part : Nat)
    (nl : Nat → Nat) :
    ∀ (L : List Nat) (ws : Nat → Nat), (∀ i, ws i < 2 ^ 32) →
      ∀ i, (L.foldl (fun ws m => killAct dip pb uorv part nl m ws) ws) i <
        2 ^ 32 := by
  intro L
  induction L with
  | nil => intro ws hw i; exact hw i
  | cons m L ih =>
    intro ws hw i
    rw [List.foldl_cons]
    exact ih _ (killAct_bound dip pb uorv part nl m ws hw) i

theorem bitNonces_mem {a32 b n : Nat} (ha : a32 < 2 ^ 32)
    (h : n ∈ bitNonces a32 b) : b ≤ n ∧ n < b + 32 := by
  have hc : 0 < (bitNonces a32 b).count n := List.count_pos_iff.mpr h
  rw [bitNonces_count] at hc
  by_cases hcond : b ≤ n ∧ a32.testBit (n - b) = true
  · have hlt : n - b < 32 := by
      by_contra hge
      push_neg at hge
      rw [testBit_ge_32 ha hge] at hcond
      exact absurd hcond.2 (by simp)
    omega
  · rw [if_neg hcond] at hc
    omega

theorem threadNonces_mem_iff (H T t : Nat) (ws : Nat → Nat)
    (hw : ∀ i, ws i < 2 ^ 32) (hT : 0 < T) (ht : t < T) (h32 : 32 ∣ H)
    (n : Nat) :
    n ∈ threadNonces H T t ws ↔
      (n < H ∧ (n / 32) % T = t ∧ shrinking_test ws n = true) := by
  rw [← List.count_pos_iff, threadNonces_count n H T t ws hw hT ht h32]
  by_cases hcond : n < H ∧ (n / 32) % T = t ∧ shrinking_test ws n = true
  · rw [if_pos hcond]
    simp [hcond]
  · rw [if_neg hcond]
    simp [hcond]

theorem kill_blocks_eq (dip : Nat → Nat → Nat) (pb uorv part T t : Nat)
    (nl ws0 : Nat → Nat) (hw0 : ∀ i, ws0 i < 2 ^ 32) (ht : t < T)
    (H : Nat) :
    ∀ fuel b (ws : Nat → Nat),
      32 ∣ b → (b / 32) % T = t →
      (∀ j, b / 32 ≤ j → j % T = t → ws j = ws0 j) →
      (blockList H (T * 32) fuel b).foldl
        (fun ws b2 => scanBits (killAct dip pb uorv part nl)
          (shrinking_block ws b2) b2 ws) ws =
      ((blockList H (T * 32) fuel b).flatMap
        (fun b2 => bitNonces (shrinking_block ws0 b2) b2)).foldl
        (fun s n => killAct dip pb uorv part nl n s) ws := by
  intro fuel
  induction fuel with
  | zero => intro b ws _ _ _; rfl
  | succ fuel ih =>
    intro b ws hdvd hres hagree
    rw [blockList]
    by_cases hb : b < H
    · rw [if_pos hb, List.foldl_cons, List.flatMap_cons, List.foldl_append]
      have hwordeq : ws (b / 32) = ws0 (b / 32) :=
        hagree (b / 32) (le_refl _) hres
      have hblockeq : shrinking_block ws b = shrinking_block ws0 b := by
        rw [shrinking_block, shrinking_block]
        have : b / 32 = b / 32 := rfl
        rw [hwordeq]
      rw [hblockeq, scanBits_eq_fold]
      obtain ⟨kb, hkb⟩ := hdvd
      have hdvd2 : 32 ∣ b + T * 32 := ⟨kb + T, by omega⟩
      have hdiv2 : (b + T * 32) / 32 = b / 32 + T := by omega
      have hres2 : ((b + T * 32) / 32) % T = t := by
        rw [hdiv2, Nat.add_mod_right]
        exact hres
      apply ih (b + T * 32) _ hdvd2 hres2
      intro j hj hjres
      have hjne : ∀ n ∈ bitNonces (shrinking_block ws0 b) b, n / 32 ≠ j := by
        intro n hn
        have hbnd := bitNonces_mem (shrinking_block_lt ws0 b (hw0 _)) hn
        have : n / 32 = b / 32 := by omega
        rw [this]
        omega
      rw [foldKill_word dip pb uorv part nl _ ws j hjne]
      exact hagree j (by omega) hjres
    · rw [if_neg hb]
      rfl

theorem kill_thread_to_list (dip : Nat → Nat → Nat)
    (pb H T uorv part t : Nat) (nl ws0 ws : Nat → Nat)
    (hw0 : ∀ i, ws0 i < 2 ^ 32) (ht : t < T)
    (hagree : ∀ j, j % T = t → ws j = ws0 j) :
    kill_thread dip pb H T uorv part nl t ws =
      (threadNonces H T t ws0).foldl
        (fun s n => killAct dip pb uorv part nl n s) ws := by
  rw [kill_thread, threadNonces]
  apply kill_blocks_eq dip pb uorv part T t nl ws0 hw0 ht H H (t * 32) ws
  · exact ⟨t, by omega⟩
  · have h1 : t * 32 / 32 = t := by omega
    rw [h1]
    exact Nat.mod_eq_of_lt ht
  · intro j _ hjres
    exact hagree j hjres

theorem kill_threads_fold (dip : Nat → Nat → Nat)
    (pb H T uorv part : Nat) (nl ws0 : Nat → Nat)
    (hw0 : ∀ i, ws0 i < 2 ^ 32) (hT : 0 < T) (h32 : 32 ∣ H) :
    ∀ (l : List Nat) (ws : Nat → Nat),
      (∀ t2 ∈ l, t2 < T) → l.Nodup →
      (∀ j, j % T ∈ l → ws j = ws0 j) →
      ∀ n, (shrinking_test
          (l.foldl (fun ws t => kill_thread dip pb H T uorv part nl t ws)
            ws) n = true) ↔
        (shrinking_test ws n = true ∧
          ¬ ((n / 32) % T ∈ l ∧ n < H ∧
            killCond dip pb uorv part nl n = true)) := by
  intro l
  induction l with
  | nil =>
    intro ws _ _ _ n
    simp
  | cons t l ih =>
    intro ws hlt hnd hagree n
    have ht : t < T := hlt t (List.mem_cons_self _ _)
    have htnl : t ∉ l := (List.nodup_cons.mp hnd).1
    rw [List.foldl_cons]
    have hstep := kill_thread_to_list dip pb H T uorv part t nl ws0 ws hw0
      ht (fun j hj => hagree j (by rw [hj]; exact List.mem_cons_self _ _))
    rw [hstep]
    have hagree2 : ∀ j, j % T ∈ l →
        ((threadNonces H T t ws0).foldl
          (fun s n => killAct dip pb uorv part nl n s) ws) j = ws0 j := by
      intro j hj
      have hjt : j % T ≠ t := fun hc => htnl (hc ▸ hj)
      have hjne : ∀ n2 ∈ threadNonces H T t ws0, n2 / 32 ≠ j := by
        intro n2 hn2
        have hc := (threadNonces_mem_iff H T t ws0 hw0 hT ht h32 n2).mp hn2
        intro heq
        rw [heq] at hc
        exact hjt hc.2.1
      rw [foldKill_word dip pb uorv part nl _ ws j hjne]
      exact hagree j (List.mem_cons_of_mem _ hj)
    rw [ih _ (fun t2 h => hlt t2 (List.mem_cons_of_mem _ h))
      (List.nodup_cons.mp hnd).2 hagree2 n]
    rw [foldKill_test]
    rw [threadNonces_mem_iff H T t ws0 hw0 hT ht h32 n]
    simp only [List.mem_cons]
    by_cases hres : (n / 32) % T = t
    · have hninl : (n / 32) % T ∉ l := fun hc => htnl (hres ▸ hc)
      have htesteq : shrinking_test ws n = shrinking_test ws0 n := by
        rw [shrinking_test_eq, shrinking_test_eq,
          hagree (n / 32) (by rw [hres]; exact List.mem_cons_self _ _)]
      constructor
      · rintro ⟨⟨h1, h2⟩, _⟩
        refine ⟨h1, ?_⟩
        rintro ⟨_, hH, hkc⟩
        apply h2
        refine ⟨⟨hH, hres, ?_⟩, hkc⟩
        rw [← htesteq]
        exact h1
      · rintro ⟨h1, h2⟩
        refine ⟨⟨h1, ?_⟩, ?_⟩
        · rintro ⟨⟨hH, _, _⟩, hkc⟩
          exact h2 ⟨Or.inl hres, hH, hkc⟩
        · rintro ⟨hmem, hH, hkc⟩
          exact h2 ⟨Or.inr hmem, hH, hkc⟩
    · constructor
      · rintro ⟨⟨h1, h2⟩, h3⟩
        refine ⟨h1, ?_⟩
        rintro ⟨hres2 | hmem, hH, hkc⟩
        · exact hres hres2
        · exact h3 ⟨hmem, hH, hkc⟩
      · rintro ⟨h1, h2⟩
        refine ⟨⟨h1, ?_⟩, ?_⟩
        · rintro ⟨⟨_, hres2, _⟩, _⟩
          exact hres hres2
        · rintro ⟨hmem, hH, hkc⟩
          exact h2 ⟨Or.inr hmem, hH, hkc⟩

theorem kill_leaf_edges_test (dip : Nat → Nat → Nat)
    (pb H T uorv part : Nat) (nl ws : Nat → Nat)
    (hw : ∀ i, ws i < 2 ^ 32) (hT : 0 < T) (h32 : 32 ∣ H) (n : Nat) :
    (shrinking_test (kill_leaf_edges dip pb H T uorv part nl ws) n =
      true) ↔
      (shrinking_test ws n = true ∧
        ¬ (n < H ∧ killCond dip pb uorv part nl n = true)) := by
  rw [kill_leaf_edges]
  rw [kill_threads_fold dip pb H T uorv part nl ws hw hT h32
    (List.range T) ws (fun t2 h => List.mem_range.mp h)
    (List.nodup_range T) (fun _ _ => rfl) n]
  have hmem : (n / 32) % T ∈ List.range T :=
    List.mem_range.mpr (Nat.mod_lt _ hT)
  simp [hmem]

theorem foldl_preserve {α σ : Type} (P : σ → Prop) (f : σ → α → σ)
    (h : ∀ s a, P s → P (f s a)) :
    ∀ (l : List α) (s : σ), P s → P (l.foldl f s) := by
  intro l
  induction l with
  | nil => intro s hs; exact hs
  | cons a l ih =>
    intro s hs
    rw [List.foldl_cons]
    exact ih _ (h s a hs)

theorem foldl_congr_preserve {α σ : Type} (P : σ → Prop) (f1 f2 : σ → α → σ)
    (hp : ∀ s a, P s → P (f1 s a))
    (he : ∀ s a, P s → f1 s a = f2 s a) :
    ∀ (l : List α) (s : σ), P s → l.foldl f1 s = l.foldl f2 s := by
  intro l
  induction l with
  | nil => intro s _; rfl
  | cons a l ih =>
    intro s hs
    rw [List.foldl_cons, List.foldl_cons, ← he s a hs]
    exact ih _ (hp s a hs)

theorem scanBits_kill_bound (dip : Nat → Nat → Nat) (pb uorv part : Nat)
    (nl : Nat → Nat) (a32 b : Nat) (ws : Nat → Nat)
    (hw : ∀ i, ws i < 2 ^ 32) :
    ∀ i, scanBits (killAct dip pb uorv part nl) a32 b ws i < 2 ^ 32 := by
  rw [scanBits_eq_fold]
  exact foldKill_bound dip pb uorv part nl _ ws hw

theorem kill_thread_bound (dip : Nat → Nat → Nat)
    (pb H T uorv part t : Nat) (nl ws : Nat → Nat)
    (hw : ∀ i, ws i < 2 ^ 32) :
    ∀ i, kill_thread dip pb H T uorv part nl t ws i < 2 ^ 32 := by
  rw [kill_thread]
  exact foldl_preserve (fun ws => ∀ i, ws i < 2 ^ 32)
    (fun ws b => scanBits (killAct dip pb uorv part nl)
      (shrinking_block ws b) b ws)
    (fun s2 b hs2 => scanBits_kill_bound dip pb uorv part nl _ b s2 hs2)
    _ ws hw

theorem kill_leaf_edges_bound (dip : Nat → Nat → Nat)
    (pb H T uorv part : Nat) (nl ws : Nat → Nat)
    (hw : ∀ i, ws i < 2 ^ 32) :
    ∀ i, kill_leaf_edges dip pb H T uorv part nl ws i < 2 ^ 32 := by
  rw [kill_leaf_edges]
  exact foldl_preserve (fun ws => ∀ i, ws i < 2 ^ 32)
    (fun ws t => kill_thread dip pb H T uorv part nl t ws)
    (fun s t hs => kill_thread_bound dip pb H T uorv part t nl s hs)
    (List.range T) ws hw

theorem trimRound_bound (dip : Nat → Nat → Nat) (pb H T : Nat)
    (ws : Nat → Nat) (uorv part : Nat) (hw : ∀ i, ws i < 2 ^ 32) :
    ∀ i, trimRound dip pb H T ws uorv part i < 2 ^ 32 := by
  rw [trimRound]
  exact kill_leaf_edges_bound dip pb H T uorv part _ ws hw

theorem words_eq_of_test_eq (ws1 ws2 : Nat → Nat)
    (h1 : ∀ i, ws1 i < 2 ^ 32) (h2 : ∀ i, ws2 i < 2 ^ 32)
    (ht : ∀ n, shrinking_test ws1 n = shrinking_test ws2 n) :
    ws1 = ws2 := by
  funext j
  apply Nat.eq_of_testBit_eq
  intro k
  by_cases hk : k < 32
  · have hn := ht (32 * j + k)
    rw [shrinking_test_eq, shrinking_test_eq] at hn
    have hdiv : (32 * j + k) / 32 = j := by omega
    have hmod : (32 * j + k) % 32 = k := by omega
    rw [hdiv, hmod] at hn
    exact Bool.not_inj hn
  · rw [testBit_ge_32 (h1 j) (by omega), testBit_ge_32 (h2 j) (by omega)]

theorem bool_eq_of_iff {a b : Bool} {P : Prop} (ha : a = true ↔ P)
    (hb : b = true ↔ P) : a = b := by
  cases a
  · cases b
    · rfl
    · exact absurd (ha.mpr (hb.mp rfl)) (by simp)
  · cases b
    · exact absurd (hb.mpr (ha.mp rfl)) (by simp)
    · rfl

theorem trimRound_T_eq (dip : Nat → Nat → Nat) (pb H T1 T2 : Nat)
    (ws : Nat → Nat) (hw : ∀ i, ws i < 2 ^ 32) (hT1 : 0 < T1)
    (hT2 : 0 < T2) (h32 : 32 ∣ H) (uorv part : Nat) :
    trimRound dip pb H T1 ws uorv part = trimRound dip pb H T2 ws uorv part := by
  apply words_eq_of_test_eq
  · exact trimRound_bound dip pb H T1 ws uorv part hw
  · exact trimRound_bound dip pb H T2 ws uorv part hw
  · intro n
    have hkc : killCond dip pb uorv part
        (count_node_deg dip pb H T1 uorv part ws) n =
        killCond dip pb uorv part
          (count_node_deg dip pb H T2 uorv part ws) n := by
      rw [killCond, killCond,
        count_node_deg_indep dip pb H T1 T2 uorv part ws hw hT1 hT2 h32
          (dip n uorv >>> pb)]
    have e1 := kill_leaf_edges_test dip pb H T1 uorv part
      (count_node_deg dip pb H T1 uorv part ws) ws hw hT1 h32 n
    have e2 := kill_leaf_edges_test dip pb H T2 uorv part
      (count_node_deg dip pb H T2 uorv part ws) ws hw hT2 h32 n
    rw [← hkc] at e2
    rw [trimRound, trimRound]
    exact bool_eq_of_iff e1 e2

theorem trimExec_T_eq (dip : Nat → Nat → Nat) (pb H T1 T2 ntrims : Nat)
    (ws : Nat → Nat) (hw : ∀ i, ws i < 2 ^ 32) (hT1 : 0 < T1)
    (hT2 : 0 < T2) (h32 : 32 ∣ H) :
    trimExec dip pb H T1 ntrims ws = trimExec dip pb H T2 ntrims ws := by
  rw [trimExec, trimExec]
  have hpart : ∀ (T : Nat) (ws2 : Nat → Nat) (uorv : Nat),
      (∀ i, ws2 i < 2 ^ 32) →
      ∀ i, (List.range (PART_MASK pb + 1)).foldl
        (fun ws part => trimRound dip pb H T ws uorv part) ws2 i < 2 ^ 32 :=
    fun T ws2 uorv hw2 =>
      foldl_preserve (fun ws => ∀ i, ws i < 2 ^ 32)
        (fun ws part => trimRound dip pb H T ws uorv part)
        (fun s part hs => trimRound_bound dip pb H T s uorv part hs)
        (List.range (PART_MASK pb + 1)) ws2 hw2
  have huorv : ∀ (T : Nat) (ws2 : Nat → Nat),
      (∀ i, ws2 i < 2 ^ 32) →
      ∀ i, (List.range 2).foldl (fun ws uorv =>
        (List.range (PART_MASK pb + 1)).foldl
          (fun ws part => trimRound dip pb H T ws uorv part) ws) ws2 i <
        2 ^ 32 :=
    fun T ws2 hw2 =>
      foldl_preserve (fun ws => ∀ i, ws i < 2 ^ 32)
        (fun ws uorv => (List.range (PART_MASK pb + 1)).foldl
          (fun ws part => trimRound dip pb H T ws uorv part) ws)
        (fun s uorv hs => hpart T s uorv hs)
        (List.range 2) ws2 hw2
  refine foldl_congr_preserve (fun ws => ∀ i, ws i < 2 ^ 32) _ _
    (fun s _ hs => huorv T1 s hs) ?_ (List.range ntrims) ws hw
  intro s _ hs
  refine foldl_congr_preserve (fun ws => ∀ i, ws i < 2 ^ 32) _ _
    (fun s2 uorv hs2 => hpart T1 s2 uorv hs2) ?_ (List.range 2) s hs
  intro s2 uorv hs2
  exact foldl_congr_preserve (fun ws => ∀ i, ws i < 2 ^ 32) _ _
    (fun s3 part hs3 => trimRound_bound dip pb H T1 s3 uorv part hs3)
    (fun s3 part hs3 =>
      trimRound_T_eq dip pb H T1 T2 s3 hs3 hT1 hT2 h32 uorv part)
    (List.range (PART_MASK pb + 1)) s2 hs2

/-- C3: for a fixed edge generator (that is, a fixed header and graph-size
parameters), trim-round count and partition count, the post-trimming alive
set is a pure function of those inputs — so repeated runs agree — and it is
the same for every parallelism width nthreads at least 1; any emitted
solution, computed from the final alive set, is then identical as well. -/
theorem trimming_deterministic (dip : Nat → Nat → Nat)
    (pb H ntrims T1 T2 : Nat) (hT1 : 0 < T1) (hT2 : 0 < T2)
    (h32 : 32 ∣ H) (ws : Nat → Nat) (hw : ∀ i, ws i < 2 ^ 32) :
    (∀ n, shrinking_test (trimExec dip pb H T1 ntrims ws) n =
      shrinking_test (trimExec dip pb H T2 ntrims ws) n) ∧
    (∀ sip ps nf cycle0,
      emitLoop sip ps nf
        (fun n => shrinking_test (trimExec dip pb H T1 ntrims ws) n) H
        cycle0 =
      emitLoop sip ps nf
        (fun n => shrinking_test (trimExec dip pb H T2 ntrims ws) n) H
        cycle0) := by
  have heq := trimExec_T_eq dip pb H T1 T2 ntrims ws hw hT1 hT2 h32
  constructor
  · intro n
    rw [heq]
  · intro sip ps nf cycle0
    rw [heq]

theorem filter_length_mono {p q : Nat → Bool}
    (h : ∀ a, p a = true → q a = true) :
    ∀ l : List Nat, (l.filter p).length ≤ (l.filter q).length := by
  intro l
  induction l with
  | nil => simp
  | cons a l ih =>
    rw [List.filter_cons, List.filter_cons]
    by_cases hp : p a = true
    · rw [if_pos hp, if_pos (h a hp)]
      simpa using ih
    · have hp2 : p a = false := by
        cases hc : p a
        · rfl
        · exact absurd hc hp
      rw [hp2]
      simp only [Bool.false_eq_true, if_false]
      by_cases hq : q a = true
      · rw [if_pos hq]
        simp only [List.length_cons]
        omega
      · have hq2 : q a = false := by
          cases hc : q a
          · rfl
          · exact absurd hc hq
        rw [hq2]
        simp only [Bool.false_eq_true, if_false]
        exact ih

/-- C5: shrinkingset transitions are one-directional: reset kills its edge;
reset on an already dead edge leaves the state unchanged; no operation of a
trimming round revives a dead edge; and consequently the alive count is
non-increasing across trimming rounds. -/
theorem aliveset_monotone :
    (∀ (ws : Nat → Nat) n,
      shrinking_test (shrinking_reset ws n) n = false) ∧
    (∀ (ws : Nat → Nat) n, shrinking_test ws n = false →
      shrinking_reset ws n = ws) ∧
    (∀ (ws : Nat → Nat) n m, shrinking_test ws n = false →
      shrinking_test (shrinking_reset ws m) n = false) ∧
    (∀ (dip : Nat → Nat → Nat) (pb H T : Nat) (ws : Nat → Nat)
      (uorv part : Nat), 0 < T → 32 ∣ H → (∀ i, ws i < 2 ^ 32) →
      aliveCount H (trimRound dip pb H T ws uorv part) ≤ aliveCount H ws) := by
  refine ⟨?_, ?_, ?_, ?_⟩
  · intro ws n
    rw [shrinking_test_reset]
    simp
  · intro ws n h
    exact shrinking_reset_dead h
  · intro ws n m h
    rw [shrinking_test_reset, h]
    rfl
  · intro dip pb H T ws uorv part hT h32 hw
    rw [aliveCount, aliveCount]
    apply filter_length_mono
    intro n hn
    rw [trimRound] at hn
    exact ((kill_leaf_edges_test dip pb H T uorv part _ ws hw hT h32
      n).mp hn).1

/-- Witness for trimming_deterministic: the 2-thread and 1-thread trims of a
32-nonce toy graph agree at nonce 5. -/
theorem trimming_deterministic_witness :
    shrinking_test (trimExec dipToy 0 32 2 1 (fun _ => 0)) 5 =
      shrinking_test (trimExec dipToy 0 32 1 1 (fun _ => 0)) 5 :=
  (trimming_deterministic dipToy 0 32 1 2 1 (by decide) (by decide)
    (by decide) (fun _ => 0) (fun _ => by norm_num)).1 5

/-- Witness for aliveset_monotone: one trim round of the toy graph does not
increase the alive count. -/
theorem aliveset_monotone_witness :
    aliveCount 32 (trimRound dipToy 0 32 1 (fun _ => 0) 0 0) ≤
      aliveCount 32 (fun _ => 0) :=
  aliveset_monotone.2.2.2 dipToy 0 32 1 (fun _ => 0) 0 0 (by decide)
    (by decide) (fun _ => by norm_num)

/-- C4 counterexample: with PROOFSIZE = 2 the matched edge is not removed
from the pending set: after alive nonce 0 with pair (1, 2) matches (n = 1),
the pair is still pending — and that is what lets the second nonce of the
degenerate 2-cycle match the same pair (n = 2 after the full scan). -/
theorem two_cycle_edge_not_erased_cex :
    (emitLoop sipPair 2 0 (fun _ => true) 1 {(1, 2)}).n = 1 ∧
    (1, 2) ∈ (emitLoop sipPair 2 0 (fun _ => true) 1 {(1, 2)}).pending ∧
    (emitLoop sipPair 2 0 (fun _ => true) 2 {(1, 2)}).n = 2 :=
  ⟨by decide, by decide, by decide⟩

end Cuckoo
